import Mathlib

/-!
# Proxy-bid auction: winner resolution and bid submission

A shallow embedding of `item.go` and `bid.go`.

* Go `int` is the 64-bit two's complement integer. Amounts are `Int` values
  of the machine range (`Typed`), and every sum `CurrentBid + BidIncrement`
  that the code computes is reduced by `wrap`, as the machine does.
* The two unbounded `for` loops of `determineWinner` are embedded with a
  step budget (`fuel`): `none` means that the budget ran out, `some r` that
  the loop exited with result `r`.
* The registry `map[int]*Item` is embedded as a function from identifiers to
  optional items.
-/

namespace Auction

/-- Bid record of `bid.go`. -/
structure Bid where
  BidderName : String
  InitialBid : Int
  MaxBid : Int
  BidIncrement : Int
  CurrentBid : Int
  ItemID : Int
deriving DecidableEq, Repr

/-- Request payload of `bid.go`. -/
structure BidRequest where
  BidderName : String
  InitialBid : Int
  MaxBid : Int
  BidIncrement : Int
deriving DecidableEq, Repr

/-- Item record of `item.go` (the mutex is not part of the sequential state). -/
structure Item where
  ID : Int
  Name : String
  Bids : List Bid
deriving DecidableEq, Repr

/-- Registry `map[int]*Item`. -/
abbrev Items := Int → Option Item

/-- Smallest value of Go's `int` on a 64-bit platform. -/
def minInt : Int := -9223372036854775808

/-- Largest value of Go's `int` on a 64-bit platform. -/
def maxInt : Int := 9223372036854775807

/-- Result of Go's `int` addition for the mathematical sum `x`: reduced modulo
`2^64` into the two's complement range (signed overflow wraps around). -/
def wrap (x : Int) : Int :=
  (x + 9223372036854775808) % 18446744073709551616 - 9223372036854775808

/-- Inner loop of `determineWinner` (item.go line 112-114):
`for cur <= highestBid && cur + inc <= max { cur += inc }`, the sum in Go `int`. -/
def raiseLoop : Nat → Int → Bid → Option Bid
  | 0, _, _ => none
  | fuel + 1, highestBid, b =>
    if b.CurrentBid ≤ highestBid ∧ wrap (b.CurrentBid + b.BidIncrement) ≤ b.MaxBid then
      raiseLoop fuel highestBid { b with CurrentBid := wrap (b.CurrentBid + b.BidIncrement) }
    else
      some b

/-- Fallback of item.go line 108-110: a zero current bid becomes the initial bid. -/
def fallback (b : Bid) : Bid :=
  if b.CurrentBid = 0 then { b with CurrentBid := b.InitialBid } else b

/-- Update of the running highest bid, item.go line 116-118. -/
def bump (highestBid : Int) (b : Bid) : Int :=
  if b.CurrentBid > highestBid then b.CurrentBid else highestBid

/-- One sweep `for bi := range item.Bids` (item.go line 106-119), threading the
running highest bid. -/
def passBids (fuel : Nat) : Int → List Bid → Option (List Bid × Int)
  | highestBid, [] => some ([], highestBid)
  | highestBid, b :: rest =>
    match raiseLoop fuel highestBid (fallback b) with
    | none => none
    | some b' =>
      match passBids fuel (bump highestBid b') rest with
      | none => none
      | some (rest', h) => some (b' :: rest', h)

/-- A bid that keeps the loop going, item.go line 124, the sum in Go `int`. -/
def pending (highestBid : Int) (b : Bid) : Bool :=
  decide (b.CurrentBid < highestBid) && decide (b.CurrentBid ≤ b.MaxBid)
    && decide (wrap (b.CurrentBid + b.BidIncrement) ≤ b.MaxBid)

/-- Finality check, item.go line 122-127. -/
def isFinal (highestBid : Int) (bids : List Bid) : Bool :=
  bids.all (fun b => !pending highestBid b)

/-- Outer loop `for { ... if isFinal { break } }` of item.go line 105-131;
the first argument bounds each inner loop, the second the number of passes. -/
def resolveLoop (fuel : Nat) : Nat → Int → List Bid → Option (List Bid × Int)
  | 0, _, _ => none
  | n + 1, highestBid, bids =>
    match passBids fuel highestBid bids with
    | none => none
    | some (bids', h) =>
      if isFinal h bids' then some (bids', h) else resolveLoop fuel n h bids'

/-- Winner search of item.go line 134-139, started at position `i`;
`-1` when no bid stands at the highest bid. -/
def findWinner (highestBid : Int) : List Bid → Int → Int
  | [], _ => -1
  | b :: rest, i => if b.CurrentBid = highestBid then i else findWinner highestBid rest (i + 1)

/-- Method `determineWinner` of item.go line 101-142 on the bid slice:
returns `(winnerIndex, highestBid)` together with the mutated slice. -/
def determineWinner (fuel : Nat) (bids : List Bid) : Option (Int × Int × List Bid) :=
  match resolveLoop fuel fuel 0 bids with
  | none => none
  | some (bids', h) => some (findWinner h bids' 0, h, bids')

/-- What a handler writes back: the status line and, on success, the encoded
bid. `indexPanic` is the run-time panic of an out-of-range slice index. -/
inductive Reply where
  | ok (bid : Bid)
  | invalidID
  | itemNotFound
  | invalidBody
  | noWinner
  | indexPanic
deriving DecidableEq, Repr

/-- Handler `CreateBidHandler` of bid.go line 27-65. `pathID` is the result of
`strconv.Atoi` on the path value (`none` when it is empty or malformed),
`body` the result of decoding the request body (`none` on a decoding error).
The registry holds one item per identifier, as `CreateItemHandler` builds it. -/
def CreateBidHandler (items : Items) (pathID : Option Int) (body : Option BidRequest) :
    Items × Reply :=
  match pathID with
  | none => (items, Reply.invalidID)
  | some itemID =>
    match items itemID with
    | none => (items, Reply.itemNotFound)
    | some item =>
      match body with
      | none => (items, Reply.invalidBody)
      | some bidR =>
        let bid : Bid :=
          { BidderName := bidR.BidderName
            InitialBid := bidR.InitialBid
            MaxBid := bidR.MaxBid
            BidIncrement := bidR.BidIncrement
            CurrentBid := bidR.InitialBid
            ItemID := itemID }
        (Function.update items itemID (some { item with Bids := item.Bids ++ [bid] }),
          Reply.ok bid)

/-- Handler `GetItemWinner` of item.go line 69-98; `none` when the budget of
`determineWinner` runs out. Indexing `item.Bids[winnerIndex]` panics when the
index is negative or not below the length. -/
def GetItemWinner (fuel : Nat) (items : Items) (pathID : Option Int) :
    Option (Items × Reply) :=
  match pathID with
  | none => some (items, Reply.invalidID)
  | some itemID =>
    match items itemID with
    | none => some (items, Reply.itemNotFound)
    | some item =>
      if item.Bids.length = 0 then some (items, Reply.noWinner)
      else
        match determineWinner fuel item.Bids with
        | none => none
        | some (winnerIndex, _, bids') =>
          let items' := Function.update items itemID (some { item with Bids := bids' })
          if winnerIndex < 0 then some (items', Reply.indexPanic)
          else
            match bids'[winnerIndex.toNat]? with
            | none => some (items', Reply.indexPanic)
            | some bid => some (items', Reply.ok bid)

/-- A registry holding item 1 without bids, as in `TestCreateBidHandler`. -/
def testItems : Items := fun id => if id = 1 then some ⟨1, "Test Item", []⟩ else none

/-- The request of `TestCreateBidHandler`. -/
def testRequest : BidRequest := ⟨"Test Bidder", 100, 200, 10⟩

/-- A request with negative amounts; `CreateBidHandler` stores it as it is. -/
def negativeRequest : BidRequest := ⟨"x", -5, -5, 1⟩

/-! ## Notions used in the statements and proofs -/

/-- A value of Go's `int`. -/
def IsInt (x : Int) : Prop := minInt ≤ x ∧ x ≤ maxInt

instance (x : Int) : Decidable (IsInt x) := by unfold IsInt; infer_instance

/-- A record whose amounts are values of Go's `int`, as every record that the
program holds is. -/
def Typed (b : Bid) : Prop :=
  IsInt b.InitialBid ∧ IsInt b.MaxBid ∧ IsInt b.BidIncrement ∧ IsInt b.CurrentBid

instance (b : Bid) : Decidable (Typed b) := by unfold Typed; infer_instance

/-- No sum that the raise guard can compute for this record leaves the machine
range: the increment added to the initial, the maximum or the current bid
stays at or below `maxInt`. -/
def NoOverflow (b : Bid) : Prop :=
  b.InitialBid + b.BidIncrement ≤ maxInt ∧ b.MaxBid + b.BidIncrement ≤ maxInt ∧
    b.CurrentBid + b.BidIncrement ≤ maxInt

instance (b : Bid) : Decidable (NoOverflow b) := by unfold NoOverflow; infer_instance

/-- A typed record with a positive increment on which no sum overflows. -/
def Safe (b : Bid) : Prop := Typed b ∧ 0 < b.BidIncrement ∧ NoOverflow b

instance (b : Bid) : Decidable (Safe b) := by unfold Safe; infer_instance

/-- Effect of one loop body on one bid, whatever the sums do: the frame is
kept, the current bid is the fallback value or was stored by a raise (and is
then at or below the ceiling), and it is still a machine integer. -/
def Moved (b b' : Bid) : Prop :=
  (b'.BidderName = b.BidderName ∧ b'.InitialBid = b.InitialBid ∧ b'.MaxBid = b.MaxBid ∧
    b'.BidIncrement = b.BidIncrement ∧ b'.ItemID = b.ItemID) ∧
  (b'.CurrentBid = (fallback b).CurrentBid ∨ b'.CurrentBid ≤ b.MaxBid) ∧
  (Typed b → Typed b')

/-- Whether the loop guard's second conjunct holds: one more increment fits
under the ceiling. -/
def Raisable (b : Bid) : Prop := b.CurrentBid + b.BidIncrement ≤ b.MaxBid

instance (b : Bid) : Decidable (Raisable b) := by unfold Raisable; infer_instance

/-- Effect of one loop body on one bid: the fallback followed by `k` raises,
none of which goes past the ceiling. -/
def Step (b b' : Bid) : Prop :=
  ∃ k : Nat, b' = { fallback b with
      CurrentBid := (fallback b).CurrentBid + k * b.BidIncrement } ∧
    (k = 0 ∨ b'.CurrentBid ≤ b.MaxBid)

/-- Running highest bid after a sweep over bids that are no longer changed. -/
def runHigh (H : Int) (bs : List Bid) : Int := bs.foldl bump H

/-- Every bid fails the raise guard against the running highest bid at the
moment it is visited. -/
def Settled : Int → List Bid → Prop
  | _, [] => True
  | H, b :: rest => ¬ (b.CurrentBid ≤ H ∧ Raisable b) ∧ Settled (bump H b) rest

/-- The highest bid is the initial 0 or the current bid of some record. -/
def Anchored (H : Int) (bs : List Bid) : Prop :=
  H = 0 ∨ ∃ b ∈ bs, b.CurrentBid = H

/-- Fields that `determineWinner` never assigns. -/
def SameFrame (b b' : Bid) : Prop :=
  b'.BidderName = b.BidderName ∧ b'.InitialBid = b.InitialBid ∧ b'.MaxBid = b.MaxBid ∧
    b'.BidIncrement = b.BidIncrement ∧ b'.ItemID = b.ItemID

/-- Room left for raises: distance to the ceiling while one more increment
fits, else nothing. -/
def slack (b : Bid) : Nat :=
  if Raisable b then (b.MaxBid - b.CurrentBid).toNat else 0

/-- Sum of the room left over the ledger; it bounds the number of passes. -/
def totalSlack (bs : List Bid) : Nat := (bs.map slack).sum

/-- Step budget that suffices for a ledger of safe records: the finite sum of
the distances to the ceilings. -/
def fuelBound (bs : List Bid) : Nat :=
  1 + (bs.map (fun b =>
    (b.MaxBid - b.CurrentBid).toNat + (b.MaxBid - b.InitialBid).toNat + 1)).sum

/-- The budget covers each inner loop, whether it starts from the current or
from the initial bid. -/
def FuelOK (fuel : Nat) (bs : List Bid) : Prop :=
  ∀ b ∈ bs, (b.MaxBid - b.CurrentBid).toNat < fuel ∧ (b.MaxBid - b.InitialBid).toNat < fuel

/-- Facts that every sweep preserves on a ledger of safe records. -/
def Base (H : Int) (bs : List Bid) : Prop :=
  0 ≤ H ∧ Anchored H bs ∧ ∀ b ∈ bs, Safe b

/-- A record after any number of sweeps: same frame, and a current bid that is
under the ceiling unless it still is the stored current or initial bid. -/
def Capped (b₀ b : Bid) : Prop :=
  SameFrame b₀ b ∧
    (b.CurrentBid ≤ b₀.MaxBid ∨ b.CurrentBid = b₀.CurrentBid ∨ b.CurrentBid = b₀.InitialBid)

/-- The ledger of the first case of `TestDetermineWinner` (amounts in cents). -/
def testLedger : List Bid :=
  [⟨"Sasha", 5000, 8000, 300, 0, 0⟩, ⟨"John", 6000, 8200, 200, 0, 0⟩,
    ⟨"Pat", 5500, 8500, 500, 0, 0⟩]

/-- Data-model constraints on a stored record: `0 ≤ InitialBid ≤ MaxBid`, a
positive increment, and a current bid that is 0 (never resolved) or lies
between the initial bid and the ceiling. -/
def Valid (b : Bid) : Prop :=
  0 ≤ b.InitialBid ∧ b.InitialBid ≤ b.MaxBid ∧ 0 < b.BidIncrement ∧
    (b.CurrentBid = 0 ∨ (b.InitialBid ≤ b.CurrentBid ∧ b.CurrentBid ≤ b.MaxBid))

instance (b : Bid) : Decidable (Valid b) := by unfold Valid; infer_instance

/-- Weaker constraints: nothing negative is stored and the increment is positive. -/
def NonNeg (b : Bid) : Prop :=
  0 ≤ b.InitialBid ∧ 0 ≤ b.CurrentBid ∧ 0 < b.BidIncrement

instance (b : Bid) : Decidable (NonNeg b) := by unfold NonNeg; infer_instance

/-- A valid record after any number of sweeps, compared with the stored one:
same frame, still valid, and its starting value has not gone down. -/
def Grown (b₀ b : Bid) : Prop :=
  SameFrame b₀ b ∧ Valid b ∧ (fallback b₀).CurrentBid ≤ (fallback b).CurrentBid

/-- Loop invariant used for the winner: facts on the highest bid, non-negative
records, and the frame. -/
def WinInv (bs₀ : List Bid) (H : Int) (bs : List Bid) : Prop :=
  Base H bs ∧ (∀ b ∈ bs, NonNeg b) ∧ List.Forall₂ SameFrame bs₀ bs

/-- Loop invariant used in the valid regime. -/
def ValidInv (bs₀ : List Bid) (H : Int) (bs : List Bid) : Prop :=
  Base H bs ∧ List.Forall₂ Grown bs₀ bs

/-- A ledger as two calls of `CreateBidHandler` store it for item 1: the first
bid can still rise, the second one starts higher. -/
def ascLedger : List Bid := [⟨"a", 5, 100, 1, 5, 1⟩, ⟨"b", 20, 20, 1, 20, 1⟩]

/-- A ledger as two calls of `CreateBidHandler` store it for item 1, with
amounts at the top of the machine range. -/
def topLedger : List Bid :=
  [⟨"A", 9223372036854775807, 9223372036854775807, 1, 9223372036854775807, 1⟩,
    ⟨"B", 9223372036854775805, 9223372036854775807, 5, 9223372036854775805, 1⟩]

/-- A ledger as two calls of `CreateBidHandler` store it for item 1; the second
bid's increment is the largest `int`. -/
def hugeStepLedger : List Bid :=
  [⟨"C", 5, 10, 1, 5, 1⟩, ⟨"B", 20, 21, 9223372036854775807, 20, 1⟩]

/-- A ledger as two calls of `CreateBidHandler` store it for item 1; the second
bid starts below the first and its increment is the largest `int`. -/
def lowerLedger : List Bid :=
  [⟨"A", 100, 100, 1, 100, 1⟩, ⟨"B", 5, 6, 9223372036854775807, 5, 1⟩]

/-- Two identical bids (5, 6, largest `int`) with current bid 0. -/
def twinLedger : List Bid :=
  [⟨"1", 5, 6, 9223372036854775807, 0, 1⟩, ⟨"2", 5, 6, 9223372036854775807, 0, 1⟩]

/-- The same two bids as two calls of `CreateBidHandler` store them for item 1
(current bid equal to the initial bid). -/
def twinStored : List Bid :=
  [⟨"1", 5, 6, 9223372036854775807, 5, 1⟩, ⟨"2", 5, 6, 9223372036854775807, 5, 1⟩]

/-- A valid record as a sweep leaves it, compared with the stored one: same
frame, valid, not below its starting value, between initial bid and ceiling. -/
def Resolved (b₀ b : Bid) : Prop :=
  SameFrame b₀ b ∧ Valid b ∧ (fallback b₀).CurrentBid ≤ b.CurrentBid ∧
    b.InitialBid ≤ b.CurrentBid ∧ b.CurrentBid ≤ b.MaxBid

/-- Records that share initial bid `a`, ceiling `m` and increment `d`, and whose
current bid is 0 or `a` plus a whole number of increments. -/
def Uniform (a m d : Int) (b : Bid) : Prop :=
  b.InitialBid = a ∧ b.MaxBid = m ∧ b.BidIncrement = d ∧
    (b.CurrentBid = 0 ∨ ∃ k : Nat, b.CurrentBid = a + k * d)

/-- Loop invariant used for identical bidders. -/
def UniformInv (bs₀ : List Bid) (a m d : Int) (H : Int) (bs : List Bid) : Prop :=
  ValidInv bs₀ H bs ∧ ∀ b ∈ bs, Uniform a m d b

/-- A record that a sweep can only leave at or below its ceiling: the initial
and the current bid are at or below the maximum bid, the increment is positive
and the amounts are Go `int`s. -/
def UnderCeiling (b : Bid) : Prop :=
  b.InitialBid ≤ b.MaxBid ∧ b.CurrentBid ≤ b.MaxBid ∧ 0 < b.BidIncrement ∧ Typed b

/-- A lone bid with initial bid 0. -/
def loneZero : List Bid := [⟨"x", 0, 10, 3, 0, 0⟩]

/-- The ledger of the fifth case of `TestDetermineWinner`: ten identical
bidders (50.00, 80.00, 3.00), amounts in cents. -/
def tenBidders : List Bid :=
  [⟨"1", 5000, 8000, 300, 0, 0⟩, ⟨"2", 5000, 8000, 300, 0, 0⟩, ⟨"3", 5000, 8000, 300, 0, 0⟩,
    ⟨"4", 5000, 8000, 300, 0, 0⟩, ⟨"5", 5000, 8000, 300, 0, 0⟩, ⟨"6", 5000, 8000, 300, 0, 0⟩,
    ⟨"7", 5000, 8000, 300, 0, 0⟩, ⟨"8", 5000, 8000, 300, 0, 0⟩, ⟨"9", 5000, 8000, 300, 0, 0⟩,
    ⟨"10", 5000, 8000, 300, 0, 0⟩]

/-- A ledger as `CreateBidHandler` stores it for item 1: a bid with a positive
increment followed by a bid whose increment is 0. -/
def staticLedger : List Bid :=
  [⟨"rival", 150, 200, 10, 150, 1⟩, ⟨"static", 100, 200, 0, 100, 1⟩]

/-! ## The inner raise loop -/

theorem wrap_of_isInt {x : Int} (h : IsInt x) : wrap x = x := by
  unfold IsInt minInt maxInt at h
  unfold wrap
  omega

theorem wrap_isInt (x : Int) : IsInt (wrap x) := by
  unfold IsInt minInt maxInt wrap
  omega

theorem Safe_sum {b : Bid} (h : Safe b) :
    wrap (b.CurrentBid + b.BidIncrement) = b.CurrentBid + b.BidIncrement := by
  obtain ⟨⟨-, -, -, hc⟩, hinc, -, -, hs⟩ := h
  apply wrap_of_isInt
  unfold IsInt at hc ⊢
  exact ⟨by omega, hs⟩

/-- What the inner loop does on every record, overflow or not. -/
theorem raiseLoop_moved (fuel : Nat) (H : Int) : ∀ (b b' : Bid),
    raiseLoop fuel H b = some b' →
    SameFrame b b' ∧ (b'.CurrentBid = b.CurrentBid ∨ b'.CurrentBid ≤ b.MaxBid) ∧
      (IsInt b.CurrentBid → IsInt b'.CurrentBid) ∧
      ¬ (b'.CurrentBid ≤ H ∧ wrap (b'.CurrentBid + b'.BidIncrement) ≤ b'.MaxBid) := by
  induction fuel with
  | zero => intro b b' h; simp [raiseLoop] at h
  | succ n ih =>
    intro b b' h
    unfold raiseLoop at h
    split_ifs at h with hg
    · obtain ⟨hf, hc, ht, hex⟩ := ih _ _ h
      refine ⟨hf, Or.inr ?_, fun _ => ht (wrap_isInt _), hex⟩
      rcases hc with hc | hc
      · rw [hc]; exact hg.2
      · exact hc
    · simp only [Option.some.injEq] at h
      subst h
      exact ⟨⟨rfl, rfl, rfl, rfl, rfl⟩, Or.inl rfl, id, hg⟩

/-- On a safe record the sums do not wrap: the loop adds the increment `k`
times, stays at or below the ceiling, and leaves a safe record that fails the
guard. -/
theorem raiseLoop_spec (fuel : Nat) (H : Int) : ∀ (b b' : Bid), Safe b →
    raiseLoop fuel H b = some b' →
    (∃ k : Nat, b' = { b with CurrentBid := b.CurrentBid + k * b.BidIncrement } ∧
      (k = 0 ∨ b'.CurrentBid ≤ b.MaxBid) ∧
      ¬ (b'.CurrentBid ≤ H ∧ Raisable b')) ∧ Safe b' := by
  induction fuel with
  | zero => intro b b' _ h; simp [raiseLoop] at h
  | succ n ih =>
    intro b b' hs h
    have hsum := Safe_sum hs
    unfold raiseLoop at h
    rw [hsum] at h
    split_ifs at h with hg
    · have hs1 : Safe { b with CurrentBid := b.CurrentBid + b.BidIncrement } := by
        obtain ⟨⟨t1, t2, t3, t4⟩, hinc, o1, o2, o3⟩ := hs
        have hg2 := hg.2
        unfold IsInt at t2 t4
        refine ⟨⟨t1, t2, t3, ?_⟩, hinc, o1, o2, ?_⟩
        · unfold IsInt; simp only; constructor <;> omega
        · simp only; omega
      obtain ⟨⟨k, hk, hle, hex⟩, hs'⟩ := ih _ _ hs1 h
      refine ⟨⟨k + 1, ?_, ?_, hex⟩, hs'⟩
      · rw [hk]; simp only [Bid.mk.injEq, true_and, and_true]; push_cast; ring
      · right
        rcases hle with h0 | hle
        · subst h0; rw [hk]; simpa using hg.2
        · simpa using hle
    · simp only [Option.some.injEq] at h
      subst h
      exact ⟨⟨0, by simp, Or.inl rfl, by simpa [Raisable] using hg⟩, hs⟩

theorem raiseLoop_total (H : Int) : ∀ (fuel : Nat) (b : Bid), Safe b →
    (b.MaxBid - b.CurrentBid).toNat < fuel → ∃ b', raiseLoop fuel H b = some b' := by
  intro fuel
  induction fuel with
  | zero => intro b _ h; omega
  | succ n ih =>
    intro b hs hf
    have hsum := Safe_sum hs
    unfold raiseLoop
    rw [hsum]
    split_ifs with hg
    · apply ih
      · obtain ⟨⟨t1, t2, t3, t4⟩, hinc, o1, o2, o3⟩ := hs
        have hg2 := hg.2
        unfold IsInt at t2 t4
        refine ⟨⟨t1, t2, t3, ?_⟩, hinc, o1, o2, ?_⟩
        · unfold IsInt; simp only; constructor <;> omega
        · simp only; omega
      · simp only
        have := hg.2
        have := hs.2.1
        omega
    · exact ⟨b, rfl⟩

/-! ## One sweep over the ledger -/

theorem fallback_frame (b : Bid) : SameFrame b (fallback b) := by
  unfold fallback SameFrame; split_ifs <;> simp

theorem fallback_cur (b : Bid) :
    (fallback b).CurrentBid = if b.CurrentBid = 0 then b.InitialBid else b.CurrentBid := by
  unfold fallback; split_ifs <;> rfl

theorem Step_frame {b b' : Bid} (h : Step b b') : SameFrame b b' := by
  obtain ⟨k, hk, -⟩ := h
  have hf := fallback_frame b
  subst hk
  exact hf

theorem Step_cur {b b' : Bid} (h : Step b b') :
    ∃ k : Nat, b'.CurrentBid = (fallback b).CurrentBid + k * b.BidIncrement ∧
      (k = 0 ∨ b'.CurrentBid ≤ b.MaxBid) := by
  obtain ⟨k, hk, hle⟩ := h
  exact ⟨k, by rw [hk], hle⟩

theorem bump_ge (H : Int) (b : Bid) : H ≤ bump H b := by
  unfold bump; split_ifs <;> omega

theorem bump_ge_cur (H : Int) (b : Bid) : b.CurrentBid ≤ bump H b := by
  unfold bump; split_ifs <;> omega

theorem bump_cases (H : Int) (b : Bid) :
    (bump H b = H ∧ b.CurrentBid ≤ H) ∨ (bump H b = b.CurrentBid ∧ H < b.CurrentBid) := by
  unfold bump; split_ifs <;> omega

theorem SameFrame_trans {a b c : Bid} (h₁ : SameFrame a b) (h₂ : SameFrame b c) :
    SameFrame a c := by
  obtain ⟨a1, a2, a3, a4, a5⟩ := h₁
  obtain ⟨b1, b2, b3, b4, b5⟩ := h₂
  exact ⟨b1.trans a1, b2.trans a2, b3.trans a3, b4.trans a4, b5.trans a5⟩

theorem SameFrame_refl (a : Bid) : SameFrame a a := ⟨rfl, rfl, rfl, rfl, rfl⟩

theorem forall₂_mem_right {R : Bid → Bid → Prop} : ∀ {l l' : List Bid},
    List.Forall₂ R l l' → ∀ b' ∈ l', ∃ b ∈ l, R b b' := by
  intro l l' h
  induction h with
  | nil => intro b' hb'; simp at hb'
  | cons hr _ ih =>
    intro b' hb'
    rcases List.mem_cons.1 hb' with rfl | hm
    · exact ⟨_, List.mem_cons_self _ _, hr⟩
    · obtain ⟨b, hb, hR⟩ := ih b' hm
      exact ⟨b, List.mem_cons_of_mem _ hb, hR⟩

theorem forall₂_mem_left {R : Bid → Bid → Prop} : ∀ {l l' : List Bid},
    List.Forall₂ R l l' → ∀ b ∈ l, ∃ b' ∈ l', R b b' := by
  intro l l' h
  induction h with
  | nil => intro b hb; simp at hb
  | cons hr _ ih =>
    intro b hb
    rcases List.mem_cons.1 hb with rfl | hm
    · exact ⟨_, List.mem_cons_self _ _, hr⟩
    · obtain ⟨b', hb', hR⟩ := ih b hm
      exact ⟨b', List.mem_cons_of_mem _ hb', hR⟩

theorem fallback_typed {b : Bid} (h : Typed b) : Typed (fallback b) := by
  unfold fallback
  split_ifs
  · exact ⟨h.1, h.2.1, h.2.2.1, h.1⟩
  · exact h

theorem fallback_safe {b : Bid} (h : Safe b) : Safe (fallback b) := by
  unfold fallback
  split_ifs
  · obtain ⟨⟨t1, t2, t3, -⟩, hinc, o1, o2, -⟩ := h
    exact ⟨⟨t1, t2, t3, t1⟩, hinc, o1, o2, o1⟩
  · exact h

/-- What a sweep does on every ledger, overflow or not. -/
theorem passBids_moved (fuel : Nat) : ∀ (bs bs' : List Bid) (H H' : Int),
    passBids fuel H bs = some (bs', H') →
    List.Forall₂ Moved bs bs' ∧ H' = runHigh H bs' := by
  intro bs
  induction bs with
  | nil =>
    intro bs' H H' h
    simp only [passBids, Option.some.injEq, Prod.mk.injEq] at h
    obtain ⟨rfl, rfl⟩ := h
    exact ⟨List.Forall₂.nil, rfl⟩
  | cons b rest ih =>
    intro bs' H H' h
    unfold passBids at h
    split at h
    · exact absurd h (by simp)
    · rename_i b1 hb1
      split at h
      · exact absurd h (by simp)
      · rename_i rest1 h1 hrest
        simp only [Option.some.injEq, Prod.mk.injEq] at h
        obtain ⟨rfl, rfl⟩ := h
        obtain ⟨hfr1, hc, ht, -⟩ := raiseLoop_moved fuel H _ _ hb1
        obtain ⟨hf, hH⟩ := ih _ _ _ hrest
        have hfr := fallback_frame b
        refine ⟨List.Forall₂.cons ⟨SameFrame_trans hfr hfr1, ?_, ?_⟩ hf, ?_⟩
        · rw [← hfr.2.2.1]; exact hc
        · intro htb
          have htf := fallback_typed htb
          obtain ⟨f1, f2, f3, f4, -⟩ := hfr1
          exact ⟨by rw [f2]; exact htf.1, by rw [f3]; exact htf.2.1,
            by rw [f4]; exact htf.2.2.1, ht htf.2.2.2⟩
        · simpa [runHigh] using hH

theorem Moved_safe {b b' : Bid} (h : Moved b b') (hs : Safe b) : Safe b' := by
  obtain ⟨⟨-, f2, f3, f4, -⟩, hc, ht⟩ := h
  obtain ⟨htb, hinc, o1, o2, o3⟩ := hs
  refine ⟨ht htb, by rw [f4]; exact hinc, by rw [f2, f4]; exact o1, by rw [f3, f4]; exact o2, ?_⟩
  rw [f4]
  rcases hc with hc | hc
  · rw [hc, fallback_cur]
    split_ifs
    · exact o1
    · exact o3
  · omega

theorem passBids_safe (fuel : Nat) (bs bs' : List Bid) (H H' : Int)
    (hs : ∀ b ∈ bs, Safe b) (hp : passBids fuel H bs = some (bs', H')) :
    ∀ b' ∈ bs', Safe b' := by
  intro b' hb'
  obtain ⟨b, hb, hm⟩ := forall₂_mem_right (passBids_moved fuel _ _ _ _ hp).1 b' hb'
  exact Moved_safe hm (hs b hb)

theorem passBids_spec (fuel : Nat) : ∀ (bs bs' : List Bid) (H H' : Int),
    (∀ b ∈ bs, Safe b) → passBids fuel H bs = some (bs', H') →
    List.Forall₂ Step bs bs' ∧ H' = runHigh H bs' ∧ Settled H bs' := by
  intro bs
  induction bs with
  | nil =>
    intro bs' H H' _ h
    simp only [passBids, Option.some.injEq, Prod.mk.injEq] at h
    obtain ⟨rfl, rfl⟩ := h
    exact ⟨List.Forall₂.nil, rfl, trivial⟩
  | cons b rest ih =>
    intro bs' H H' hs h
    unfold passBids at h
    split at h
    · exact absurd h (by simp)
    · rename_i b1 hb1
      split at h
      · exact absurd h (by simp)
      · rename_i rest1 h1 hrest
        simp only [Option.some.injEq, Prod.mk.injEq] at h
        obtain ⟨rfl, rfl⟩ := h
        obtain ⟨⟨k, hk, hle, hex⟩, -⟩ :=
          raiseLoop_spec fuel H _ _ (fallback_safe (hs b (List.mem_cons_self _ _))) hb1
        obtain ⟨hf, hH, hS⟩ := ih _ _ _ (fun c hc => hs c (List.mem_cons_of_mem _ hc)) hrest
        have hfr := fallback_frame b
        refine ⟨List.Forall₂.cons ⟨k, ?_, ?_⟩ hf, ?_, ?_⟩
        · rw [hk]; simp only [hfr.2.2.2.1]
        · rw [← hfr.2.2.1]; exact hle
        · simpa [runHigh] using hH
        · exact ⟨hex, hS⟩

theorem runHigh_cons (H : Int) (b : Bid) (bs : List Bid) :
    runHigh H (b :: bs) = runHigh (bump H b) bs := rfl

theorem runHigh_ge : ∀ (bs : List Bid) (H : Int), H ≤ runHigh H bs := by
  intro bs
  induction bs with
  | nil => intro H; exact le_refl _
  | cons b rest ih =>
    intro H
    rw [runHigh_cons]
    exact le_trans (bump_ge H b) (ih _)

theorem runHigh_ge_mem : ∀ (bs : List Bid) (H : Int), ∀ b ∈ bs, b.CurrentBid ≤ runHigh H bs := by
  intro bs
  induction bs with
  | nil => intro H b hb; simp at hb
  | cons c rest ih =>
    intro H b hb
    rw [runHigh_cons]
    rcases List.mem_cons.1 hb with rfl | hm
    · exact le_trans (bump_ge_cur H b) (runHigh_ge _ _)
    · exact ih _ b hm

theorem runHigh_cases : ∀ (bs : List Bid) (H : Int),
    runHigh H bs = H ∨ ∃ b ∈ bs, b.CurrentBid = runHigh H bs := by
  intro bs
  induction bs with
  | nil => intro H; exact Or.inl rfl
  | cons c rest ih =>
    intro H
    rw [runHigh_cons]
    rcases ih (bump H c) with h | ⟨b, hb, hc⟩
    · rcases bump_cases H c with ⟨h1, _⟩ | ⟨h1, _⟩
      · left; rw [h, h1]
      · right; exact ⟨c, List.mem_cons_self _ _, by rw [h, h1]⟩
    · right; exact ⟨b, List.mem_cons_of_mem _ hb, hc⟩

theorem runHigh_eq_of (bs : List Bid) (H M : Int) (hle : ∀ b ∈ bs, b.CurrentBid ≤ M)
    (hH : H ≤ M) (hM : H = M ∨ ∃ b ∈ bs, b.CurrentBid = M) : runHigh H bs = M := by
  apply le_antisymm
  · rcases runHigh_cases bs H with h | ⟨b, hb, hc⟩
    · rw [h]; exact hH
    · rw [← hc]; exact hle b hb
  · rcases hM with rfl | ⟨b, hb, rfl⟩
    · exact runHigh_ge _ _
    · exact runHigh_ge_mem _ _ b hb

theorem bump_mono {H₀ H : Int} (h : H₀ ≤ H) (b : Bid) : bump H₀ b ≤ bump H b := by
  unfold bump; split_ifs <;> omega

theorem Settled_anti : ∀ (bs : List Bid) (H₀ H : Int), H₀ ≤ H → Settled H bs → Settled H₀ bs := by
  intro bs
  induction bs with
  | nil => intro _ _ _ _; trivial
  | cons b rest ih =>
    intro H₀ H hle hS
    obtain ⟨h1, h2⟩ := hS
    refine ⟨fun hc => h1 ⟨le_trans hc.1 hle, hc.2⟩, ih _ _ (bump_mono hle b) h2⟩

theorem Settled_mem : ∀ (bs : List Bid) (H : Int), Settled H bs →
    ∀ b ∈ bs, ¬ (b.CurrentBid ≤ H ∧ Raisable b) := by
  intro bs
  induction bs with
  | nil => intro H _ b hb; simp at hb
  | cons c rest ih =>
    intro H hS b hb
    obtain ⟨h1, h2⟩ := hS
    rcases List.mem_cons.1 hb with rfl | hm
    · exact h1
    · exact ih _ (Settled_anti _ _ _ (bump_ge H c) h2) b hm

theorem passBids_total (fuel : Nat) : ∀ (bs : List Bid) (H : Int),
    (∀ b ∈ bs, Safe b) → FuelOK fuel bs → ∃ r, passBids fuel H bs = some r := by
  intro bs
  induction bs with
  | nil => intro H _ _; exact ⟨_, rfl⟩
  | cons b rest ih =>
    intro H hinc hf
    have hfr := fallback_frame b
    have hb := hf b (List.mem_cons_self _ _)
    have h1 : ∃ b', raiseLoop fuel H (fallback b) = some b' := by
      apply raiseLoop_total
      · exact fallback_safe (hinc b (List.mem_cons_self _ _))
      · rw [hfr.2.2.1, fallback_cur]
        split_ifs
        · exact hb.2
        · exact hb.1
    obtain ⟨b', hb'⟩ := h1
    obtain ⟨r, hr⟩ := ih (bump H b') (fun c hc => hinc c (List.mem_cons_of_mem _ hc))
      (fun c hc => hf c (List.mem_cons_of_mem _ hc))
    refine ⟨(b' :: r.1, r.2), ?_⟩
    unfold passBids
    rw [hb']
    simp only [hr]

theorem passBids_unchanged (fuel : Nat) : ∀ (bs : List Bid) (H : Int), Settled H bs →
    (∀ b ∈ bs, fallback b = b) → (∀ b ∈ bs, Safe b) →
    passBids (fuel + 1) H bs = some (bs, runHigh H bs) := by
  intro bs
  induction bs with
  | nil => intro H _ _ _; rfl
  | cons b rest ih =>
    intro H hS hfb hs
    obtain ⟨h1, h2⟩ := hS
    have hr : raiseLoop (fuel + 1) H (fallback b) = some b := by
      rw [hfb b (List.mem_cons_self _ _)]
      unfold raiseLoop
      rw [Safe_sum (hs b (List.mem_cons_self _ _)), if_neg]
      simpa [Raisable] using h1
    unfold passBids
    rw [hr]
    simp only [ih (bump H b) h2 (fun c hc => hfb c (List.mem_cons_of_mem _ hc))
      (fun c hc => hs c (List.mem_cons_of_mem _ hc))]
    rfl

/-! ## Progress measure -/

theorem Step_slack_le {b b' : Bid} {H : Int} (h : Step b b') (hinc : 0 < b.BidIncrement)
    (hH : 0 ≤ H) (hex : ¬ (b'.CurrentBid ≤ H ∧ Raisable b')) :
    slack b' ≤ slack b ∧ (b.CurrentBid ≤ H ∧ Raisable b → slack b' < slack b) := by
  obtain ⟨k, hk, hle⟩ := Step_cur h
  obtain ⟨-, -, hmax, hincr, -⟩ := (Step_frame h)
  have ht0 : (0 : Int) ≤ k * b.BidIncrement := by positivity
  have ht1 : k ≠ 0 → b.BidIncrement ≤ k * b.BidIncrement := by
    intro hk0
    have : (1 : Int) ≤ k := by omega
    nlinarith
  have ht2 : k = 0 → (k : Int) * b.BidIncrement = 0 := by intro h0; simp [h0]
  rw [fallback_cur] at hk
  unfold slack Raisable
  unfold Raisable at hex
  simp only [hmax, hincr] at hex ⊢
  generalize (k : Int) * b.BidIncrement = t at *
  generalize b'.CurrentBid = c' at *
  by_cases hk0 : k = 0
  · have := ht2 hk0
    split_ifs at hk <;> split_ifs <;> constructor <;> omega
  · have := ht1 hk0
    split_ifs at hk <;> split_ifs <;> constructor <;> omega

theorem totalSlack_cons (b : Bid) (bs : List Bid) :
    totalSlack (b :: bs) = slack b + totalSlack bs := by
  simp [totalSlack]

theorem passBids_slack : ∀ {bs bs' : List Bid}, List.Forall₂ Step bs bs' → ∀ (H : Int),
    Settled H bs' → 0 ≤ H → (∀ b ∈ bs, 0 < b.BidIncrement) →
    totalSlack bs' ≤ totalSlack bs ∧
      ((∃ b ∈ bs, b.CurrentBid ≤ H ∧ Raisable b) → totalSlack bs' < totalSlack bs) := by
  intro bs bs' h
  induction h with
  | nil => intro H _ _ _; exact ⟨le_refl _, fun ⟨b, hb, _⟩ => by simp at hb⟩
  | @cons b b' rest rest' hstep _ ih =>
    intro H hS hH hinc
    obtain ⟨hex, hS'⟩ := hS
    obtain ⟨h1, h2⟩ := Step_slack_le hstep (hinc b (List.mem_cons_self _ _)) hH hex
    obtain ⟨h3, h4⟩ := ih (bump H b') hS' (le_trans hH (bump_ge H b'))
      (fun c hc => hinc c (List.mem_cons_of_mem _ hc))
    rw [totalSlack_cons, totalSlack_cons]
    refine ⟨by omega, ?_⟩
    rintro ⟨c, hc, hcH, hcr⟩
    rcases List.mem_cons.1 hc with rfl | hm
    · have := h2 ⟨hcH, hcr⟩
      omega
    · have := h4 ⟨c, hm, le_trans hcH (bump_ge H b'), hcr⟩
      omega

theorem Step_fuelOK {fuel : Nat} {bs bs' : List Bid} (h : List.Forall₂ Step bs bs')
    (hinc : ∀ b ∈ bs, 0 < b.BidIncrement) (hf : FuelOK fuel bs) : FuelOK fuel bs' := by
  intro b' hb'
  obtain ⟨b, hb, hstep⟩ := forall₂_mem_right h b' hb'
  obtain ⟨k, hk, -⟩ := Step_cur hstep
  obtain ⟨-, hini, hmax, -, -⟩ := (Step_frame hstep)
  have ht0 : (0 : Int) ≤ k * b.BidIncrement := by
    have := hinc b hb
    positivity
  have := hf b hb
  rw [fallback_cur] at hk
  rw [hmax, hini]
  generalize (k : Int) * b.BidIncrement = t at *
  split_ifs at hk <;> constructor <;> omega

theorem Step_inc_pos {bs bs' : List Bid} (h : List.Forall₂ Step bs bs')
    (hinc : ∀ b ∈ bs, 0 < b.BidIncrement) : ∀ b' ∈ bs', 0 < b'.BidIncrement := by
  intro b' hb'
  obtain ⟨b, hb, hstep⟩ := forall₂_mem_right h b' hb'
  rw [(Step_frame hstep).2.2.2.1]
  exact hinc b hb

/-! ## The outer loop -/

/-- The finality check as the code computes it, the sum in Go `int`. -/
theorem isFinal_iff_wrap (H : Int) (bs : List Bid) :
    isFinal H bs = true ↔
      ∀ b ∈ bs, ¬ (b.CurrentBid < H ∧ b.CurrentBid ≤ b.MaxBid ∧
        wrap (b.CurrentBid + b.BidIncrement) ≤ b.MaxBid) := by
  simp only [isFinal, pending, List.all_eq_true, Bool.not_eq_true', Bool.and_eq_false_iff,
    decide_eq_false_iff_not]
  constructor <;> intro h b hb <;> have := h b hb <;> tauto

theorem isFinal_iff (H : Int) (bs : List Bid) (hs : ∀ b ∈ bs, Safe b) :
    isFinal H bs = true ↔
      ∀ b ∈ bs, ¬ (b.CurrentBid < H ∧ b.CurrentBid ≤ b.MaxBid ∧ Raisable b) := by
  rw [isFinal_iff_wrap]
  constructor <;> intro h b hb <;> have := h b hb <;> rw [Safe_sum (hs b hb)] at * <;>
    exact this

theorem not_isFinal (H : Int) (bs : List Bid) (hs : ∀ b ∈ bs, Safe b)
    (h : ¬ isFinal H bs = true) :
    ∃ b ∈ bs, b.CurrentBid ≤ H ∧ Raisable b := by
  rw [isFinal_iff H bs hs] at h
  push_neg at h
  obtain ⟨b, hb, h1, -, h3⟩ := h
  exact ⟨b, hb, le_of_lt h1, h3⟩

/-- The result of the outer loop is produced by a sweep from a state that
satisfies any property preserved by sweeps, and it passes the finality check. -/
theorem resolveLoop_final (fuel : Nat) (Inv : Int → List Bid → Prop)
    (hpres : ∀ H bs bs' H', Inv H bs → passBids fuel H bs = some (bs', H') → Inv H' bs') :
    ∀ (n : Nat) (H : Int) (bs bsf : List Bid) (Hf : Int), Inv H bs →
      resolveLoop fuel n H bs = some (bsf, Hf) →
      ∃ Hin bsin, Inv Hin bsin ∧ passBids fuel Hin bsin = some (bsf, Hf) ∧
        isFinal Hf bsf = true := by
  intro n
  induction n with
  | zero => intro H bs bsf Hf _ h; simp [resolveLoop] at h
  | succ n ih =>
    intro H bs bsf Hf hinv h
    unfold resolveLoop at h
    split at h
    · exact absurd h (by simp)
    · rename_i bs1 H1 hp
      split_ifs at h with hfin
      · simp only [Option.some.injEq, Prod.mk.injEq] at h
        obtain ⟨rfl, rfl⟩ := h
        exact ⟨H, bs, hinv, hp, hfin⟩
      · exact ih _ _ _ _ (hpres _ _ _ _ hinv hp) h

theorem Safe_inc_pos {bs : List Bid} (hs : ∀ b ∈ bs, Safe b) :
    ∀ b ∈ bs, 0 < b.BidIncrement := fun b hb => (hs b hb).2.1

theorem resolveLoop_total_aux (fuel : Nat) : ∀ (n : Nat) (H : Int) (bs : List Bid), 0 ≤ H →
    (∀ b ∈ bs, Safe b) → FuelOK fuel bs →
    (∀ bs' H', passBids fuel H bs = some (bs', H') → totalSlack bs' < n) →
    ∃ r, resolveLoop fuel n H bs = some r := by
  intro n
  induction n with
  | zero =>
    intro H bs _ hs hf h
    obtain ⟨⟨bs1, H1⟩, hp⟩ := passBids_total fuel bs H hs hf
    have := h _ _ hp
    omega
  | succ n ih =>
    intro H bs hH hs hf hlt
    have hinc := Safe_inc_pos hs
    obtain ⟨⟨bs1, H1⟩, hp⟩ := passBids_total fuel bs H hs hf
    obtain ⟨hstep, hrun, hS⟩ := passBids_spec fuel _ _ _ _ hs hp
    have hH1 : 0 ≤ H1 := by rw [hrun]; exact le_trans hH (runHigh_ge _ _)
    have hs1 := passBids_safe fuel _ _ _ _ hs hp
    have hf1 := Step_fuelOK hstep hinc hf
    have h1 := hlt _ _ hp
    unfold resolveLoop
    rw [hp]
    simp only
    split_ifs with hfin
    · exact ⟨_, rfl⟩
    · apply ih H1 bs1 hH1 hs1 hf1
      intro bs2 H2 hp2
      obtain ⟨hstep2, -, hS2⟩ := passBids_spec fuel _ _ _ _ hs1 hp2
      have := (passBids_slack hstep2 H1 hS2 hH1 (Safe_inc_pos hs1)).2
        (not_isFinal _ _ hs1 hfin)
      omega

theorem forall₂_mem_left_idx {R : Bid → Bid → Prop} : ∀ {l l' : List Bid},
    List.Forall₂ R l l' → ∀ b ∈ l, ∃ (n : Nat) (b' : Bid),
      l[n]? = some b ∧ l'[n]? = some b' ∧ R b b' := by
  intro l l' h
  induction h with
  | nil => intro b hb; simp at hb
  | @cons a a' rest rest' hr _ ih =>
    intro b hb
    rcases List.mem_cons.1 hb with rfl | hm
    · exact ⟨0, a', by simp, by simp, hr⟩
    · obtain ⟨n, b', h1, h2, h3⟩ := ih b hm
      exact ⟨n + 1, b', by simpa using h1, by simpa using h2, h3⟩

/-- On safe records, the sweep that follows a sweep whose result failed the
finality check raises at least one bid by at least one increment. -/
theorem sweep_raises (fuel : Nat) (H₀ : Int) (bs₀ bs₁ : List Bid) (H₁ : Int)
    (bs₂ : List Bid) (H₂ : Int) (hH : 0 ≤ H₀) (hs : ∀ b ∈ bs₀, Safe b)
    (hp₁ : passBids fuel H₀ bs₀ = some (bs₁, H₁)) (hnf : ¬ isFinal H₁ bs₁ = true)
    (hp₂ : passBids fuel H₁ bs₁ = some (bs₂, H₂)) :
    ∃ (n : Nat) (b b' : Bid), bs₁[n]? = some b ∧ bs₂[n]? = some b' ∧
      b.CurrentBid + b.BidIncrement ≤ b'.CurrentBid := by
  have hs₁ := passBids_safe fuel _ _ _ _ hs hp₁
  obtain ⟨-, -, hS₁⟩ := passBids_spec fuel _ _ _ _ hs hp₁
  obtain ⟨hstep, -, hS₂⟩ := passBids_spec fuel _ _ _ _ hs₁ hp₂
  have hfin := hnf
  rw [isFinal_iff H₁ bs₁ hs₁] at hfin
  push_neg at hfin
  obtain ⟨b, hb, hlt, -, hr⟩ := hfin
  have hne : ¬ (b.CurrentBid ≤ H₀ ∧ Raisable b) := Settled_mem _ _ hS₁ b hb
  have hpos : 0 < b.CurrentBid := by
    by_contra hcon
    exact hne ⟨by omega, hr⟩
  obtain ⟨n, b', h1, h2, hst⟩ := forall₂_mem_left_idx hstep b hb
  refine ⟨n, b, b', h1, h2, ?_⟩
  have hex := Settled_mem _ _ hS₂ b' (List.getElem?_mem h2)
  obtain ⟨k, hk, -⟩ := Step_cur hst
  obtain ⟨-, -, hmax, hincr, -⟩ := Step_frame hst
  have hinc := (hs₁ b hb).2.1
  rw [fallback_cur, if_neg (by omega)] at hk
  unfold Raisable at hex hr
  rw [hmax, hincr] at hex
  by_cases hk0 : k = 0
  · subst hk0
    simp only [Nat.cast_zero, zero_mul, add_zero] at hk
    rw [hk] at hex
    exact absurd ⟨le_of_lt hlt, hr⟩ hex
  · have : (1 : Int) ≤ k := by omega
    have : b.BidIncrement ≤ k * b.BidIncrement := by nlinarith
    omega

/-- On safe records, a sweep that follows a failed finality check raises at
least one bid: the room left for raises strictly shrinks. -/
theorem sweep_progress (fuel : Nat) (H : Int) (bs bs' : List Bid) (H' : Int) (hH : 0 ≤ H)
    (hs : ∀ b ∈ bs, Safe b) (hnf : ¬ isFinal H bs = true)
    (hp : passBids fuel H bs = some (bs', H')) : totalSlack bs' < totalSlack bs := by
  obtain ⟨hstep, -, hS⟩ := passBids_spec fuel _ _ _ _ hs hp
  exact (passBids_slack hstep H hS hH (Safe_inc_pos hs)).2 (not_isFinal _ _ hs hnf)

theorem resolveLoop_total (fuel n : Nat) (H : Int) (bs : List Bid) (hH : 0 ≤ H)
    (hs : ∀ b ∈ bs, Safe b) (hf : FuelOK fuel bs) (hn : totalSlack bs < n) :
    ∃ r, resolveLoop fuel n H bs = some r := by
  apply resolveLoop_total_aux fuel n H bs hH hs hf
  intro bs' H' hp
  obtain ⟨hstep, -, hS⟩ := passBids_spec fuel _ _ _ _ hs hp
  have := (passBids_slack hstep H hS hH (Safe_inc_pos hs)).1
  omega

/-! ## Budget -/

theorem fuelBound_cons (b : Bid) (bs : List Bid) :
    fuelBound (b :: bs) =
      (b.MaxBid - b.CurrentBid).toNat + (b.MaxBid - b.InitialBid).toNat + 1 + fuelBound bs := by
  simp only [fuelBound, List.map_cons, List.sum_cons]; omega

theorem fuelBound_fuelOK : ∀ (bs : List Bid), FuelOK (fuelBound bs) bs := by
  intro bs
  induction bs with
  | nil => intro b hb; simp at hb
  | cons c rest ih =>
    intro b hb
    rw [fuelBound_cons]
    rcases List.mem_cons.1 hb with rfl | hm
    · have : 1 ≤ fuelBound rest := by unfold fuelBound; omega
      constructor <;> omega
    · have := ih b hm
      constructor <;> omega

theorem FuelOK_mono {f g : Nat} {bs : List Bid} (h : FuelOK f bs) (hfg : f ≤ g) : FuelOK g bs :=
  fun b hb => ⟨lt_of_lt_of_le (h b hb).1 hfg, lt_of_lt_of_le (h b hb).2 hfg⟩

theorem totalSlack_lt_fuelBound : ∀ (bs : List Bid), totalSlack bs < fuelBound bs := by
  intro bs
  induction bs with
  | nil => simp [totalSlack, fuelBound]
  | cons c rest ih =>
    rw [fuelBound_cons, totalSlack_cons]
    have : slack c ≤ (c.MaxBid - c.CurrentBid).toNat := by
      unfold slack; split_ifs <;> omega
    omega

/-! ## Winner search -/

theorem findWinner_spec (H : Int) : ∀ (bs : List Bid) (i : Int), (∃ b ∈ bs, b.CurrentBid = H) →
    ∃ n : Nat, findWinner H bs i = i + n ∧ (∃ w, bs[n]? = some w ∧ w.CurrentBid = H) ∧
      ∀ m : Nat, m < n → ∀ c, bs[m]? = some c → c.CurrentBid ≠ H := by
  intro bs
  induction bs with
  | nil => intro i ⟨b, hb, _⟩; simp at hb
  | cons c rest ih =>
    intro i hex
    unfold findWinner
    split_ifs with hc
    · exact ⟨0, by simp, ⟨c, by simp, hc⟩, fun m hm => by omega⟩
    · have hex' : ∃ b ∈ rest, b.CurrentBid = H := by
        obtain ⟨b, hb, hbH⟩ := hex
        rcases List.mem_cons.1 hb with rfl | hm
        · exact absurd hbH hc
        · exact ⟨b, hm, hbH⟩
      obtain ⟨n, hn, hw, hlt⟩ := ih (i + 1) hex'
      refine ⟨n + 1, ?_, ?_, ?_⟩
      · rw [hn]; push_cast; ring
      · simpa using hw
      · intro m hm d hd
        cases m with
        | zero => simp at hd; rw [← hd]; exact hc
        | succ m => exact hlt m (by omega) d (by simpa using hd)

theorem findWinner_none (H : Int) : ∀ (bs : List Bid) (i : Int),
    (∀ b ∈ bs, b.CurrentBid ≠ H) → findWinner H bs i = -1 := by
  intro bs
  induction bs with
  | nil => intro i _; rfl
  | cons c rest ih =>
    intro i h
    unfold findWinner
    rw [if_neg (h c (List.mem_cons_self _ _))]
    exact ih _ (fun b hb => h b (List.mem_cons_of_mem _ hb))

/-! ## Invariants of the outer loop -/

theorem forall₂_trans {R S T : Bid → Bid → Prop} (hT : ∀ a b c, R a b → S b c → T a c) :
    ∀ {l₁ l₂ l₃ : List Bid}, List.Forall₂ R l₁ l₂ → List.Forall₂ S l₂ l₃ →
      List.Forall₂ T l₁ l₃ := by
  intro l₁ l₂ l₃ h
  induction h generalizing l₃ with
  | nil => intro h2; cases h2; exact List.Forall₂.nil
  | cons hr _ ih =>
    intro h2
    cases h2 with
    | cons hs hrest => exact List.Forall₂.cons (hT _ _ _ hr hs) (ih hrest)

theorem forall₂_same {R : Bid → Bid → Prop} (hR : ∀ a, R a a) :
    ∀ (l : List Bid), List.Forall₂ R l l := by
  intro l
  induction l with
  | nil => exact List.Forall₂.nil
  | cons a rest ih => exact List.Forall₂.cons (hR a) ih

theorem Step_cur_ge {b b' : Bid} (h : Step b b') (hinc : 0 < b.BidIncrement) :
    (fallback b).CurrentBid ≤ b'.CurrentBid := by
  obtain ⟨k, hk, -⟩ := Step_cur h
  have : (0 : Int) ≤ k * b.BidIncrement := by positivity
  omega

theorem Base_pres (fuel : Nat) (H : Int) (bs bs' : List Bid) (H' : Int) (hb : Base H bs)
    (hp : passBids fuel H bs = some (bs', H')) : Base H' bs' := by
  obtain ⟨hH, hanc, hs⟩ := hb
  have hinc := Safe_inc_pos hs
  obtain ⟨hstep, hrun, -⟩ := passBids_spec fuel _ _ _ _ hs hp
  refine ⟨by rw [hrun]; exact le_trans hH (runHigh_ge _ _), ?_,
    passBids_safe fuel _ _ _ _ hs hp⟩
  rcases runHigh_cases bs' H with h | h
  · rw [← hrun] at h
    rcases hanc with h0 | ⟨c, hc, hcH⟩
    · left; rw [h, h0]
    · by_cases hz : H = 0
      · left; rw [h, hz]
      · right
        obtain ⟨c', hc', hs⟩ := forall₂_mem_left hstep c hc
        refine ⟨c', hc', ?_⟩
        have h1 := Step_cur_ge hs (hinc c hc)
        have h2 := runHigh_ge_mem bs' H c' hc'
        rw [fallback_cur, if_neg (by omega)] at h1
        omega
  · right; rw [hrun]; exact h

theorem Base_init (bs : List Bid) (hs : ∀ b ∈ bs, Safe b) : Base 0 bs :=
  ⟨le_refl _, Or.inl rfl, hs⟩

/-- Every run of `determineWinner` that returns: the index is the result of the
winner search, and the returned ledger comes out of a sweep that started in a
state satisfying any sweep-invariant property of the initial state and passes
the finality check. -/
theorem determineWinner_run (fuel : Nat) (bs : List Bid) (Inv : Int → List Bid → Prop)
    (hpres : ∀ H bs bs' H', Inv H bs → passBids fuel H bs = some (bs', H') → Inv H' bs')
    (h0 : Inv 0 bs) (i p : Int) (bsf : List Bid)
    (h : determineWinner fuel bs = some (i, p, bsf)) :
    i = findWinner p bsf 0 ∧
    ∃ Hin bsin, Inv Hin bsin ∧ passBids fuel Hin bsin = some (bsf, p) ∧
      isFinal p bsf = true ∧ Inv p bsf := by
  unfold determineWinner at h
  split at h
  · exact absurd h (by simp)
  · rename_i bs1 H1 hr
    simp only [Option.some.injEq, Prod.mk.injEq] at h
    obtain ⟨rfl, rfl, rfl⟩ := h
    obtain ⟨Hin, bsin, hinv, hp, hfin⟩ := resolveLoop_final fuel Inv hpres _ _ _ _ _ h0 hr
    exact ⟨rfl, Hin, bsin, hinv, hp, hfin, hpres _ _ _ _ hinv hp⟩

/-- On safe records a budget of at least `fuelBound` makes the resolution return. -/
theorem determineWinner_returns (fuel : Nat) (bs : List Bid) (hs : ∀ b ∈ bs, Safe b)
    (hfuel : fuelBound bs ≤ fuel) :
    ∃ i p bsf, determineWinner fuel bs = some (i, p, bsf) := by
  obtain ⟨⟨bsf, Hf⟩, hr⟩ := resolveLoop_total fuel fuel 0 bs (le_refl _) hs
    (FuelOK_mono (fuelBound_fuelOK bs) hfuel) (lt_of_lt_of_le (totalSlack_lt_fuelBound bs) hfuel)
  refine ⟨findWinner Hf bsf 0, Hf, bsf, ?_⟩
  unfold determineWinner
  rw [hr]

/-- On safe records and with a budget of at least `fuelBound`, the resolution
returns; its final state comes out of a sweep that started in a state
satisfying any sweep-invariant property of the initial state. -/
theorem determineWinner_final (fuel : Nat) (bs : List Bid)
    (hs : ∀ b ∈ bs, Safe b) (hfuel : fuelBound bs ≤ fuel)
    (Inv : Int → List Bid → Prop)
    (hpres : ∀ H bs bs' H', Inv H bs → passBids fuel H bs = some (bs', H') → Inv H' bs')
    (h0 : Inv 0 bs) :
    ∃ bsf Hf Hin bsin, determineWinner fuel bs = some (findWinner Hf bsf 0, Hf, bsf) ∧
      Inv Hin bsin ∧ passBids fuel Hin bsin = some (bsf, Hf) ∧ isFinal Hf bsf = true ∧
      Inv Hf bsf := by
  obtain ⟨i, p, bsf, hdw⟩ := determineWinner_returns fuel bs hs hfuel
  obtain ⟨hi, Hin, bsin, hinv, hp, hfin, hinvf⟩ :=
    determineWinner_run fuel bs Inv hpres h0 i p bsf hdw
  exact ⟨bsf, p, Hin, bsin, by rw [hdw, hi], hinv, hp, hfin, hinvf⟩

theorem forall₂_get {R : Bid → Bid → Prop} : ∀ {l l' : List Bid}, List.Forall₂ R l l' →
    l'.length = l.length ∧ ∀ (n : Nat) (a b : Bid), l[n]? = some a → l'[n]? = some b → R a b := by
  intro l l' h
  induction h with
  | nil => exact ⟨rfl, fun n a b ha => by simp at ha⟩
  | cons hr _ ih =>
    refine ⟨by simp [ih.1], ?_⟩
    intro n a b ha hb
    cases n with
    | zero =>
      simp only [List.getElem?_cons_zero, Option.some.injEq] at ha hb
      subst ha; subst hb; exact hr
    | succ n =>
      simp only [List.getElem?_cons_succ] at ha hb
      exact ih.2 n a b ha hb

theorem Capped_step {b₀ b b' : Bid} (h : Capped b₀ b) (hs : Moved b b') : Capped b₀ b' := by
  obtain ⟨hf, hc⟩ := h
  obtain ⟨hfr, hm, -⟩ := hs
  refine ⟨SameFrame_trans hf hfr, ?_⟩
  obtain ⟨-, hini, hmax, -, -⟩ := hf
  rcases hm with hm | hm
  · rw [hm, fallback_cur]
    split_ifs
    · right; right; exact hini
    · exact hc
  · left; rw [← hmax]; exact hm

theorem Capped_pres (fuel : Nat) (bs₀ : List Bid) (H : Int) (bs bs' : List Bid) (H' : Int)
    (h : List.Forall₂ Capped bs₀ bs) (hp : passBids fuel H bs = some (bs', H')) :
    List.Forall₂ Capped bs₀ bs' :=
  forall₂_trans (R := Capped) (S := Moved) (T := Capped)
    (fun _ _ _ h₁ h₂ => Capped_step h₁ h₂) h (passBids_moved fuel _ _ _ _ hp).1

theorem Frame_pres (fuel : Nat) (bs₀ : List Bid) (H : Int) (bs bs' : List Bid) (H' : Int)
    (h : List.Forall₂ SameFrame bs₀ bs) (hp : passBids fuel H bs = some (bs', H')) :
    List.Forall₂ SameFrame bs₀ bs' :=
  forall₂_trans (R := SameFrame) (S := Moved) (T := SameFrame)
    (fun _ _ _ h₁ h₂ => SameFrame_trans h₁ h₂.1) h (passBids_moved fuel _ _ _ _ hp).1

theorem Safe_of {bs : List Bid} (htyped : ∀ b ∈ bs, Typed b)
    (hinc : ∀ b ∈ bs, 0 < b.BidIncrement) (hno : ∀ b ∈ bs, NoOverflow b) :
    ∀ b ∈ bs, Safe b := fun b hb => ⟨htyped b hb, hinc b hb, hno b hb⟩

/-! ## Termination and frame -/

/-- With the top of the machine range as highest bid and as ceiling, the raise
guard holds for every `int`: the inner loop never exits. -/
theorem raiseLoop_spin (H : Int) (hH : H = maxInt) : ∀ (fuel : Nat) (b : Bid),
    b.MaxBid = maxInt → b.CurrentBid ≤ maxInt → raiseLoop fuel H b = none := by
  intro fuel
  induction fuel with
  | zero => intro b _ _; rfl
  | succ n ih =>
    intro b hm hc
    have hw := (wrap_isInt (b.CurrentBid + b.BidIncrement)).2
    unfold raiseLoop
    rw [if_pos ⟨by rw [hH]; exact hc, by rw [hm]; exact hw⟩]
    exact ih _ hm hw

theorem resolveLoop_of_pass_none (fuel n : Nat) (H : Int) (bs : List Bid)
    (h : passBids fuel H bs = none) : resolveLoop fuel n H bs = none := by
  cases n with
  | zero => rfl
  | succ n => unfold resolveLoop; rw [h]

theorem raiseLoop_stop (fuel : Nat) (H : Int) (b : Bid)
    (h : ¬ (b.CurrentBid ≤ H ∧ wrap (b.CurrentBid + b.BidIncrement) ≤ b.MaxBid)) :
    raiseLoop (fuel + 1) H b = some b := by
  unfold raiseLoop; rw [if_neg h]

theorem raiseLoop_step (fuel : Nat) (H : Int) (b : Bid)
    (h : b.CurrentBid ≤ H ∧ wrap (b.CurrentBid + b.BidIncrement) ≤ b.MaxBid) :
    raiseLoop (fuel + 1) H b =
      raiseLoop fuel H { b with CurrentBid := wrap (b.CurrentBid + b.BidIncrement) } := by
  conv_lhs => unfold raiseLoop
  rw [if_pos h]

/-- C1, as stated, fails in two ways. On `ascLedger` (increments 1) the first
pass raises no bid, leaves the ledger as it was and still is not final, so not
every pass that is not final raises a bid. On `topLedger` (increments 1 and 5,
amounts of Go's `int`) the sum `CurrentBid + BidIncrement` wraps around, the
raise guard stays true and `determineWinner` returns for no budget. -/
theorem terminates_counterexample :
    ((∀ b ∈ ascLedger, 0 < b.BidIncrement) ∧
      passBids 5 0 ascLedger = some (ascLedger, 20) ∧ isFinal 20 ascLedger = false) ∧
    ((∀ b ∈ topLedger, 0 < b.BidIncrement ∧ Typed b) ∧
      ∀ fuel : Nat, determineWinner fuel topLedger = none) := by
  refine ⟨by decide, by decide, ?_⟩
  intro fuel
  have hp : passBids fuel 0 topLedger = none := by
    cases fuel with
    | zero => rfl
    | succ f =>
      have h1 : raiseLoop (f + 1) 0
          (fallback ⟨"A", 9223372036854775807, 9223372036854775807, 1, 9223372036854775807, 1⟩) =
          some ⟨"A", 9223372036854775807, 9223372036854775807, 1, 9223372036854775807, 1⟩ :=
        raiseLoop_stop f 0 _ (by decide)
      have h2 : raiseLoop (f + 1)
          (bump 0 ⟨"A", 9223372036854775807, 9223372036854775807, 1, 9223372036854775807, 1⟩)
          (fallback ⟨"B", 9223372036854775805, 9223372036854775807, 5, 9223372036854775805, 1⟩)
          = none :=
        raiseLoop_spin _ (by decide) (f + 1) _ (by decide) (by decide)
      unfold topLedger passBids
      rw [h1]
      simp only
      unfold passBids
      rw [h2]
  unfold determineWinner
  rw [resolveLoop_of_pass_none fuel fuel 0 topLedger hp]

/-- C1 (amended): on every ledger of Go `int` amounts whose increments are all
positive and on which no sum of the increment with the initial, maximum or
current bid exceeds `maxInt`, `determineWinner` terminates: with any budget of
at least `fuelBound`, the finite sum of the distances to the ceilings, every
inner raise loop exits and the outer loop exits after at most `totalSlack + 1`
passes; no bid is raised past its `MaxBid`; and every pass that follows a
pass whose result is not final raises at least one bid by at least one
increment and strictly lowers `totalSlack`. -/
theorem determineWinner_terminates (bids : List Bid) (htyped : ∀ b ∈ bids, Typed b)
    (hinc : ∀ b ∈ bids, 0 < b.BidIncrement) (hno : ∀ b ∈ bids, NoOverflow b)
    (fuel : Nat) (hfuel : fuelBound bids ≤ fuel) :
    (∃ i p bids', determineWinner fuel bids = some (i, p, bids') ∧
      ∀ (n : Nat) (b b' : Bid), bids[n]? = some b → bids'[n]? = some b' →
        b'.CurrentBid ≤ b.MaxBid ∨ b'.CurrentBid = b.CurrentBid ∨
          b'.CurrentBid = b.InitialBid) ∧
    (∃ r, resolveLoop fuel (totalSlack bids + 1) 0 bids = some r) ∧
    ∀ (H₀ : Int) (bs₀ bs₁ : List Bid) (H₁ : Int) (bs₂ : List Bid) (H₂ : Int), 0 ≤ H₀ →
      (∀ b ∈ bs₀, Typed b ∧ 0 < b.BidIncrement ∧ NoOverflow b) →
      passBids fuel H₀ bs₀ = some (bs₁, H₁) → isFinal H₁ bs₁ = false →
      passBids fuel H₁ bs₁ = some (bs₂, H₂) →
      totalSlack bs₂ < totalSlack bs₁ ∧
      ∃ (n : Nat) (b b' : Bid), bs₁[n]? = some b ∧ bs₂[n]? = some b' ∧
        b.CurrentBid + b.BidIncrement ≤ b'.CurrentBid := by
  have hs := Safe_of htyped hinc hno
  refine ⟨?_, ?_, ?_⟩
  · obtain ⟨bsf, Hf, Hin, bsin, hdw, -, -, -, hcap⟩ :=
      determineWinner_final fuel bids hs hfuel (fun _ bs => List.Forall₂ Capped bids bs)
        (fun H bs bs' H' h hp => Capped_pres fuel bids H bs bs' H' h hp)
        (forall₂_same (fun a => ⟨SameFrame_refl a, Or.inr (Or.inl rfl)⟩) bids)
    refine ⟨_, _, _, hdw, ?_⟩
    intro n b b' hb hb'
    exact ((forall₂_get hcap).2 n b b' hb hb').2
  · exact resolveLoop_total fuel _ 0 bids (le_refl _) hs
      (FuelOK_mono (fuelBound_fuelOK bids) hfuel) (Nat.lt_succ_self _)
  · intro H₀ bs₀ bs₁ H₁ bs₂ H₂ hH hsafe hp₁ hnf hp₂
    have hnf' : ¬ isFinal H₁ bs₁ = true := by rw [hnf]; simp
    have hH₁ : 0 ≤ H₁ := by
      rw [(passBids_moved fuel _ _ _ _ hp₁).2]; exact le_trans hH (runHigh_ge _ _)
    exact ⟨sweep_progress fuel H₁ bs₁ bs₂ H₂ hH₁ (passBids_safe fuel _ _ _ _ hsafe hp₁) hnf' hp₂,
      sweep_raises fuel H₀ bs₀ bs₁ H₁ bs₂ H₂ hH hsafe hp₁ hnf' hp₂⟩

/-- Witness for C1 (amended) on the first test ledger. -/
theorem determineWinner_terminates_witness :
    (∀ b ∈ testLedger, Typed b) ∧ (∀ b ∈ testLedger, 0 < b.BidIncrement) ∧
    (∀ b ∈ testLedger, NoOverflow b) ∧ fuelBound testLedger ≤ 40000 ∧
    ((∃ i p bids', determineWinner 40000 testLedger = some (i, p, bids') ∧
      ∀ (n : Nat) (b b' : Bid), testLedger[n]? = some b → bids'[n]? = some b' →
        b'.CurrentBid ≤ b.MaxBid ∨ b'.CurrentBid = b.CurrentBid ∨
          b'.CurrentBid = b.InitialBid) ∧
    (∃ r, resolveLoop 40000 (totalSlack testLedger + 1) 0 testLedger = some r) ∧
    ∀ (H₀ : Int) (bs₀ bs₁ : List Bid) (H₁ : Int) (bs₂ : List Bid) (H₂ : Int), 0 ≤ H₀ →
      (∀ b ∈ bs₀, Typed b ∧ 0 < b.BidIncrement ∧ NoOverflow b) →
      passBids 40000 H₀ bs₀ = some (bs₁, H₁) → isFinal H₁ bs₁ = false →
      passBids 40000 H₁ bs₁ = some (bs₂, H₂) →
      totalSlack bs₂ < totalSlack bs₁ ∧
      ∃ (n : Nat) (b b' : Bid), bs₁[n]? = some b ∧ bs₂[n]? = some b' ∧
        b.CurrentBid + b.BidIncrement ≤ b'.CurrentBid) :=
  ⟨by decide, by decide, by decide, by decide,
    determineWinner_terminates testLedger (by decide) (by decide) (by decide) 40000
      (by decide)⟩

/-- C6: `determineWinner` changes nothing but `CurrentBid`. On every ledger
with positive increments, whenever the call returns, the ledger it leaves has
the same length and, position by position, the same bidder name, initial bid,
maximum bid, increment and item id. The call does return, with any budget of
at least `fuelBound`, when the amounts are Go `int`s on which no sum overflows. -/
theorem determineWinner_frame (bids : List Bid) (hinc : ∀ b ∈ bids, 0 < b.BidIncrement) :
    (∀ (fuel : Nat) (i p : Int) (bids' : List Bid),
      determineWinner fuel bids = some (i, p, bids') →
      bids'.length = bids.length ∧
      ∀ (n : Nat) (b b' : Bid), bids[n]? = some b → bids'[n]? = some b' →
        b'.BidderName = b.BidderName ∧ b'.InitialBid = b.InitialBid ∧
        b'.MaxBid = b.MaxBid ∧ b'.BidIncrement = b.BidIncrement ∧ b'.ItemID = b.ItemID) ∧
    ((∀ b ∈ bids, Typed b) → (∀ b ∈ bids, NoOverflow b) →
      ∀ fuel : Nat, fuelBound bids ≤ fuel →
        ∃ i p bids', determineWinner fuel bids = some (i, p, bids')) := by
  constructor
  · intro fuel i p bids' hdw
    obtain ⟨-, -, -, -, -, -, hfr⟩ :=
      determineWinner_run fuel bids (fun _ bs => List.Forall₂ SameFrame bids bs)
        (fun H bs bs' H' h hp => Frame_pres fuel bids H bs bs' H' h hp)
        (forall₂_same SameFrame_refl bids) i p bids' hdw
    exact ⟨(forall₂_get hfr).1, fun n b b' hb hb' => (forall₂_get hfr).2 n b b' hb hb'⟩
  · intro htyped hno fuel hfuel
    exact determineWinner_returns fuel bids (Safe_of htyped hinc hno) hfuel

/-- Witness for C6 on the first test ledger. -/
theorem determineWinner_frame_witness :
    (∀ b ∈ testLedger, 0 < b.BidIncrement) ∧
    (∀ (fuel : Nat) (i p : Int) (bids' : List Bid),
      determineWinner fuel testLedger = some (i, p, bids') →
      bids'.length = testLedger.length ∧
      ∀ (n : Nat) (b b' : Bid), testLedger[n]? = some b → bids'[n]? = some b' →
        b'.BidderName = b.BidderName ∧ b'.InitialBid = b.InitialBid ∧
        b'.MaxBid = b.MaxBid ∧ b'.BidIncrement = b.BidIncrement ∧ b'.ItemID = b.ItemID) ∧
    ∃ i p bids', determineWinner 40000 testLedger = some (i, p, bids') :=
  ⟨by decide, (determineWinner_frame testLedger (by decide)).1,
    (determineWinner_frame testLedger (by decide)).2 (by decide) (by decide) 40000
      (by decide)⟩

/-! ## The winner -/

theorem NonNeg_step {b b' : Bid} (h : NonNeg b) (hs : Step b b') : NonNeg b' := by
  obtain ⟨h1, h2, h3⟩ := h
  obtain ⟨-, hini, -, hincr, -⟩ := Step_frame hs
  have := Step_cur_ge hs h3
  rw [fallback_cur] at this
  refine ⟨by rw [hini]; exact h1, ?_, by rw [hincr]; exact h3⟩
  split_ifs at this <;> omega

theorem WinInv_pres (fuel : Nat) (bs₀ : List Bid) (H : Int) (bs bs' : List Bid) (H' : Int)
    (h : WinInv bs₀ H bs) (hp : passBids fuel H bs = some (bs', H')) : WinInv bs₀ H' bs' := by
  obtain ⟨hb, hnn, hfr⟩ := h
  have hstep := (passBids_spec fuel _ _ _ _ hb.2.2 hp).1
  refine ⟨Base_pres fuel H bs bs' H' hb hp, ?_, Frame_pres fuel bs₀ H bs bs' H' hfr hp⟩
  intro b' hb'
  obtain ⟨b, hbm, hs⟩ := forall₂_mem_right hstep b' hb'
  exact NonNeg_step (hnn b hbm) hs

/-- On a non-empty ledger of non-negative safe records the resolution returns
a position in range; the record there stands at the returned price, no record
stands above it and none before it stands at it. -/
theorem winner_of_nonNeg (bids : List Bid) (hne : bids ≠ [])
    (hnn : ∀ b ∈ bids, NonNeg b) (hs : ∀ b ∈ bids, Safe b)
    (fuel : Nat) (hfuel : fuelBound bids ≤ fuel) :
    ∃ (n : Nat) (p : Int) (bids' : List Bid) (w : Bid),
      determineWinner fuel bids = some ((n : Int), p, bids') ∧ bids'.length = bids.length ∧
      bids'[n]? = some w ∧ w.CurrentBid = p ∧ (∀ b ∈ bids', b.CurrentBid ≤ p) ∧
      ∀ m : Nat, m < n → ∀ c, bids'[m]? = some c → c.CurrentBid < p := by
  obtain ⟨bsf, Hf, Hin, bsin, hdw, -, hp, -, ⟨hbase, hnnf, hfr⟩⟩ :=
    determineWinner_final fuel bids hs hfuel (WinInv bids) (WinInv_pres fuel bids)
      ⟨Base_init bids hs, hnn, forall₂_same SameFrame_refl bids⟩
  obtain ⟨-, hrun⟩ := passBids_moved fuel _ _ _ _ hp
  have hlen := (forall₂_get hfr).1
  have hle : ∀ b ∈ bsf, b.CurrentBid ≤ Hf := by
    intro b hb; rw [hrun]; exact runHigh_ge_mem _ _ b hb
  have hex : ∃ b ∈ bsf, b.CurrentBid = Hf := by
    rcases hbase.2.1 with h0 | h
    · have hne' : bsf ≠ [] := by
        intro h; rw [h] at hlen; exact hne (List.length_eq_zero.1 hlen.symm)
      obtain ⟨b, hb⟩ := List.exists_mem_of_ne_nil bsf hne'
      have h1 := hle b hb
      have h2 := (hnnf b hb).2.1
      exact ⟨b, hb, by omega⟩
    · exact h
  obtain ⟨n, hn, ⟨w, hw, hwc⟩, hlt⟩ := findWinner_spec Hf bsf 0 hex
  refine ⟨n, Hf, bsf, w, ?_, hlen, hw, hwc, hle, ?_⟩
  · rw [hdw, hn]; simp
  · intro m hm c hc
    have h1 := hle c (List.getElem?_mem hc)
    have h2 := hlt m hm c hc
    omega

theorem Valid_nonNeg {b : Bid} (h : Valid b) : NonNeg b := by
  obtain ⟨h1, h2, h3, h4⟩ := h
  refine ⟨h1, ?_, h3⟩
  rcases h4 with h | h <;> omega

theorem Valid_safe {b : Bid} (h : Valid b) (ht : Typed b)
    (hfit : b.MaxBid + b.BidIncrement ≤ maxInt) : Safe b := by
  obtain ⟨h1, h2, h3, h4⟩ := h
  refine ⟨ht, h3, ?_, hfit, ?_⟩
  · omega
  · rcases h4 with h | h <;> omega

/-- Within the range where no sum overflows, the winner is the maximum: on a
non-empty ledger of valid Go `int` records with `MaxBid + BidIncrement ≤ maxInt`
the call returns a position in range whose bid stands at the returned price,
and no bid stands above that price. -/
theorem determineWinner_max_noOverflow (bids : List Bid) (hne : bids ≠ [])
    (hvalid : ∀ b ∈ bids, Valid b) (htyped : ∀ b ∈ bids, Typed b)
    (hfit : ∀ b ∈ bids, b.MaxBid + b.BidIncrement ≤ maxInt)
    (fuel : Nat) (hfuel : fuelBound bids ≤ fuel) :
    ∃ (n : Nat) (p : Int) (bids' : List Bid) (w : Bid),
      determineWinner fuel bids = some ((n : Int), p, bids') ∧ n < bids.length ∧
      bids'[n]? = some w ∧ w.CurrentBid = p ∧ ∀ b ∈ bids', b.CurrentBid ≤ p := by
  obtain ⟨n, p, bids', w, hdw, hlen, hw, hwc, hle, -⟩ :=
    winner_of_nonNeg bids hne (fun b hb => Valid_nonNeg (hvalid b hb))
      (fun b hb => Valid_safe (hvalid b hb) (htyped b hb) (hfit b hb)) fuel hfuel
  refine ⟨n, p, bids', w, hdw, ?_, hw, hwc, hle⟩
  have := (List.getElem?_eq_some.1 hw).1
  omega

/-- C2 fails on the code: `hugeStepLedger` is non-empty and holds valid Go
`int` records, yet `determineWinner` returns index -1 and price 20 while the
bids end at 10 and 0: the sum `20 + MaxInt64` of the raise guard wraps around,
passes the guard and drags the second bid from 20 down to 0. The index is no
position of the ledger and the price is not the maximum of the current bids. -/
theorem determineWinner_max_overflow :
    hugeStepLedger ≠ [] ∧ (∀ b ∈ hugeStepLedger, Valid b ∧ Typed b) ∧
    determineWinner 30 hugeStepLedger =
      some (-1, 20, [⟨"C", 5, 10, 1, 10, 1⟩, ⟨"B", 20, 21, 9223372036854775807, 0, 1⟩]) := by
  decide

/-- Within the range where no sum overflows, ties go to the earliest bid: on a
non-empty ledger of Go `int` records with `0 ≤ InitialBid ≤ MaxBid`, positive
increments and no negative current bid, the returned index is the smallest
position whose current bid equals the returned price. -/
theorem determineWinner_tieBreak_noOverflow (bids : List Bid) (hne : bids ≠ [])
    (hb : ∀ b ∈ bids, 0 ≤ b.InitialBid ∧ b.InitialBid ≤ b.MaxBid ∧ 0 < b.BidIncrement)
    (hcur : ∀ b ∈ bids, 0 ≤ b.CurrentBid) (htyped : ∀ b ∈ bids, Typed b)
    (hno : ∀ b ∈ bids, NoOverflow b) (fuel : Nat) (hfuel : fuelBound bids ≤ fuel) :
    ∃ (n : Nat) (p : Int) (bids' : List Bid) (w : Bid),
      determineWinner fuel bids = some ((n : Int), p, bids') ∧ n < bids.length ∧
      bids'[n]? = some w ∧ w.CurrentBid = p ∧
      ∀ m : Nat, m < n → ∀ c, bids'[m]? = some c → c.CurrentBid < p := by
  obtain ⟨n, p, bids', w, hdw, hlen, hw, hwc, -, hlt⟩ :=
    winner_of_nonNeg bids hne (fun b hm => ⟨(hb b hm).1, hcur b hm, (hb b hm).2.2⟩)
      (fun b hm => ⟨htyped b hm, (hb b hm).2.2, hno b hm⟩) fuel hfuel
  refine ⟨n, p, bids', w, hdw, ?_, hw, hwc, hlt⟩
  have := (List.getElem?_eq_some.1 hw).1
  omega

/-- C3 fails on the code: on `hugeStepLedger` (`0 ≤ InitialBid ≤ MaxBid`,
positive increments, current bids as `CreateBidHandler` stores them) the
returned index is -1: after the wrap-around of `20 + MaxInt64` no bid stands at
the returned price 20, so the index is not the smallest position at the price. -/
theorem determineWinner_tieBreak_overflow :
    hugeStepLedger ≠ [] ∧
    (∀ b ∈ hugeStepLedger, 0 ≤ b.InitialBid ∧ b.InitialBid ≤ b.MaxBid ∧ 0 < b.BidIncrement ∧
      b.CurrentBid = b.InitialBid ∧ Typed b) ∧
    (determineWinner 30 hugeStepLedger).map (fun r => (r.1, r.2.1)) = some (-1, 20) ∧
    (determineWinner 30 hugeStepLedger).map (fun r => r.2.2.map (fun b => b.CurrentBid)) =
      some [10, 0] := by
  decide

/-! ## The valid regime -/

theorem Valid_step {b b' : Bid} (h : Valid b) (hs : Step b b') :
    Valid b' ∧ (fallback b).CurrentBid ≤ b'.CurrentBid ∧ b'.InitialBid ≤ b'.CurrentBid ∧
      b'.CurrentBid ≤ b'.MaxBid := by
  obtain ⟨h1, h2, h3, h4⟩ := h
  obtain ⟨-, hini, hmax, hincr, -⟩ := Step_frame hs
  obtain ⟨k, hk, hle⟩ := Step_cur hs
  have ht0 : (0 : Int) ≤ k * b.BidIncrement := by positivity
  have ht2 : k = 0 → (k : Int) * b.BidIncrement = 0 := by intro h0; simp [h0]
  have hc := fallback_cur b
  unfold Valid
  rw [hini, hmax, hincr]
  generalize (k : Int) * b.BidIncrement = t at *
  generalize (fallback b).CurrentBid = f at *
  have hk0 : k = 0 → t = 0 := ht2
  refine ⟨⟨h1, h2, h3, ?_⟩, ?_, ?_, ?_⟩ <;> split_ifs at hc <;> rcases hle with h0 | hle <;>
    omega

theorem fallback_eq_self {b : Bid} (h0 : 0 ≤ b.InitialBid) (h1 : b.InitialBid ≤ b.CurrentBid) :
    fallback b = b := by
  unfold fallback
  split_ifs with hz
  · cases b
    simp only at h0 h1 hz
    simp only [Bid.mk.injEq, true_and, and_true]
    omega
  · rfl

theorem Grown_step {b₀ b b' : Bid} (h : Grown b₀ b) (hs : Step b b') :
    Grown b₀ b' ∧ Resolved b₀ b' := by
  obtain ⟨hf, hv, hg⟩ := h
  obtain ⟨hv', h1, h2, h3⟩ := Valid_step hv hs
  have hfb := fallback_eq_self hv'.1 h2
  have hfr := SameFrame_trans hf (Step_frame hs)
  exact ⟨⟨hfr, hv', by rw [hfb]; omega⟩, hfr, hv', by omega, h2, h3⟩

theorem ValidInv_pres (fuel : Nat) (bs₀ : List Bid) (H : Int) (bs bs' : List Bid) (H' : Int)
    (h : ValidInv bs₀ H bs) (hp : passBids fuel H bs = some (bs', H')) :
    ValidInv bs₀ H' bs' := by
  obtain ⟨hb, hg⟩ := h
  exact ⟨Base_pres fuel H bs bs' H' hb hp,
    forall₂_trans (R := Grown) (S := Step) (T := Grown)
      (fun _ _ _ h₁ h₂ => (Grown_step h₁ h₂).1) hg (passBids_spec fuel _ _ _ _ hb.2.2 hp).1⟩

theorem Grown_same : ∀ l : List Bid, (∀ b ∈ l, Valid b) → List.Forall₂ Grown l l := by
  intro l
  induction l with
  | nil => intro _; exact List.Forall₂.nil
  | cons a rest ih =>
    intro hv
    exact List.Forall₂.cons ⟨SameFrame_refl a, hv a (List.mem_cons_self _ _), le_refl _⟩
      (ih (fun b hb => hv b (List.mem_cons_of_mem _ hb)))

/-- Final state of a resolution over valid records on which no sum overflows. -/
theorem valid_final (bids : List Bid) (hvalid : ∀ b ∈ bids, Valid b)
    (htyped : ∀ b ∈ bids, Typed b) (hfit : ∀ b ∈ bids, b.MaxBid + b.BidIncrement ≤ maxInt)
    (fuel : Nat) (hfuel : fuelBound bids ≤ fuel) :
    ∃ bsf Hf Hin, determineWinner fuel bids = some (findWinner Hf bsf 0, Hf, bsf) ∧
      Base Hf bsf ∧ 0 ≤ Hin ∧ Settled Hin bsf ∧ Hf = runHigh Hin bsf ∧
      isFinal Hf bsf = true ∧ List.Forall₂ Resolved bids bsf := by
  have hs : ∀ b ∈ bids, Safe b :=
    fun b hb => Valid_safe (hvalid b hb) (htyped b hb) (hfit b hb)
  have h0 : ValidInv bids 0 bids := ⟨Base_init bids hs, Grown_same bids hvalid⟩
  obtain ⟨bsf, Hf, Hin, bsin, hdw, ⟨hbin, hgin⟩, hp, hfin, ⟨hbf, -⟩⟩ :=
    determineWinner_final fuel bids hs hfuel (ValidInv bids) (ValidInv_pres fuel bids) h0
  obtain ⟨hstep, hrun, hS⟩ := passBids_spec fuel _ _ _ _ hbin.2.2 hp
  exact ⟨bsf, Hf, Hin, hdw, hbf, hbin.1, hS, hrun, hfin,
    forall₂_trans (R := Grown) (S := Step) (T := Resolved)
      (fun _ _ _ h₁ h₂ => (Grown_step h₁ h₂).2) hgin hstep⟩

/-- Within the range where no sum overflows, bids only rise and stay under their
ceiling: on a ledger of valid Go `int` records with
`MaxBid + BidIncrement ≤ maxInt` the call returns and leaves every current bid
at least at its starting value and at most at the record's own maximum bid. -/
theorem determineWinner_monotone_bounded_noOverflow (bids : List Bid)
    (hvalid : ∀ b ∈ bids, Valid b) (htyped : ∀ b ∈ bids, Typed b)
    (hfit : ∀ b ∈ bids, b.MaxBid + b.BidIncrement ≤ maxInt)
    (fuel : Nat) (hfuel : fuelBound bids ≤ fuel) :
    ∃ i p bids', determineWinner fuel bids = some (i, p, bids') ∧
      bids'.length = bids.length ∧
      ∀ (n : Nat) (b b' : Bid), bids[n]? = some b → bids'[n]? = some b' →
        (if b.CurrentBid = 0 then b.InitialBid else b.CurrentBid) ≤ b'.CurrentBid ∧
        b'.CurrentBid ≤ b'.MaxBid ∧ b'.MaxBid = b.MaxBid := by
  obtain ⟨bsf, Hf, Hin, hdw, -, -, -, -, -, hres⟩ :=
    valid_final bids hvalid htyped hfit fuel hfuel
  refine ⟨_, _, _, hdw, (forall₂_get hres).1, ?_⟩
  intro n b b' hb hb'
  obtain ⟨hfr, -, h1, -, h3⟩ := (forall₂_get hres).2 n b b' hb hb'
  rw [fallback_cur] at h1
  exact ⟨h1, h3, hfr.2.2.1⟩

/-- C4 fails on the code: `lowerLedger` holds valid Go `int` records, yet
`determineWinner` leaves the second bid at -1, below its value 5 before the
call: the sum `5 + MaxInt64` of the raise guard wraps around to a negative
value, passes the guard `≤ MaxBid` and is stored as the current bid. -/
theorem determineWinner_monotone_overflow :
    (∀ b ∈ lowerLedger, Valid b ∧ Typed b) ∧
    determineWinner 30 lowerLedger =
      some (0, 100, [⟨"A", 100, 100, 1, 100, 1⟩, ⟨"B", 5, 6, 9223372036854775807, -1, 1⟩]) := by
  decide

theorem resolved_rerun (bsf : List Bid) (Hf Hin : Int) (hbase : Base Hf bsf) (hHin : 0 ≤ Hin)
    (hS : Settled Hin bsf) (hrun : Hf = runHigh Hin bsf) (hfin : isFinal Hf bsf = true)
    (hfb : ∀ b ∈ bsf, fallback b = b) (fuel : Nat) (hfuel : 1 ≤ fuel) :
    determineWinner fuel bsf = some (findWinner Hf bsf 0, Hf, bsf) := by
  obtain ⟨f, rfl⟩ : ∃ f, fuel = f + 1 := ⟨fuel - 1, by omega⟩
  have hle : ∀ b ∈ bsf, b.CurrentBid ≤ Hf := by
    intro b hb; rw [hrun]; exact runHigh_ge_mem _ _ b hb
  have hr0 : runHigh 0 bsf = Hf := by
    apply runHigh_eq_of _ _ _ hle hbase.1
    rcases hbase.2.1 with h | h
    · left; exact h.symm
    · right; exact h
  have hp := passBids_unchanged f bsf 0 (Settled_anti _ _ _ hHin hS) hfb hbase.2.2
  rw [hr0] at hp
  unfold determineWinner resolveLoop
  rw [hp]
  simp only [hfin, if_true]

/-- Within the range where no sum overflows, the resolution is idempotent: on a
ledger of valid Go `int` records with `MaxBid + BidIncrement ≤ maxInt`, a
second call on the ledger left by the first returns the same index and price
and leaves every record as it is. -/
theorem determineWinner_idempotent_noOverflow (bids : List Bid)
    (hvalid : ∀ b ∈ bids, Valid b) (htyped : ∀ b ∈ bids, Typed b)
    (hfit : ∀ b ∈ bids, b.MaxBid + b.BidIncrement ≤ maxInt)
    (fuel : Nat) (hfuel : fuelBound bids ≤ fuel) :
    ∃ i p bids', determineWinner fuel bids = some (i, p, bids') ∧
      ∀ fuel' : Nat, 1 ≤ fuel' → determineWinner fuel' bids' = some (i, p, bids') := by
  obtain ⟨bsf, Hf, Hin, hdw, hbase, hHin, hS, hrun, hfin, hres⟩ :=
    valid_final bids hvalid htyped hfit fuel hfuel
  refine ⟨_, _, _, hdw, fun fuel' hf' =>
    resolved_rerun bsf Hf Hin hbase hHin hS hrun hfin ?_ fuel' hf'⟩
  intro b hb
  obtain ⟨b₀, -, hr⟩ := forall₂_mem_right hres b hb
  exact fallback_eq_self hr.2.1.1 hr.2.2.2.1

/-- C5 fails on the code: `hugeStepLedger` holds valid Go `int` records; the
first call returns `(-1, 20)` and leaves the bids at 10 and 0 (the second one
dragged down by the wrap-around of `20 + MaxInt64`), and a second call on that
ledger resets the second bid from 0 to its initial bid 20 and returns
`(1, 20)`: neither the index nor the ledger is the same. -/
theorem determineWinner_idempotent_overflow :
    (∀ b ∈ hugeStepLedger, Valid b ∧ Typed b) ∧
    determineWinner 30 hugeStepLedger =
      some (-1, 20, [⟨"C", 5, 10, 1, 10, 1⟩, ⟨"B", 20, 21, 9223372036854775807, 0, 1⟩]) ∧
    determineWinner 30 [⟨"C", 5, 10, 1, 10, 1⟩, ⟨"B", 20, 21, 9223372036854775807, 0, 1⟩] =
      some (1, 20, [⟨"C", 5, 10, 1, 10, 1⟩, ⟨"B", 20, 21, 9223372036854775807, 20, 1⟩]) := by
  decide

/-! ## Single and identical bidders -/

theorem determineWinner_singleton (fuel : Nat) (b b' : Bid)
    (hr : raiseLoop (fuel + 1) 0 (fallback b) = some b') (hpos : 0 ≤ b'.CurrentBid) :
    determineWinner (fuel + 1) [b] = some (0, b'.CurrentBid, [b']) := by
  have hp : passBids (fuel + 1) 0 [b] = some ([b'], b'.CurrentBid) := by
    unfold passBids
    rw [hr]
    simp only [passBids, bump]
    split_ifs with h
    · rfl
    · have : b'.CurrentBid = 0 := by omega
      rw [this]
  have hfin : isFinal b'.CurrentBid [b'] = true := by
    simp [isFinal, pending]
  unfold determineWinner resolveLoop
  rw [hp]
  simp only [hfin, if_true, findWinner]

/-- C9, as stated, fails: a lone bidder whose initial bid is 0 and whose
increment fits under the ceiling is raised once, so the price is the
increment 3, not the initial bid 0. -/
theorem loneBidder_counterexample :
    (∀ b ∈ loneZero, 0 ≤ b.InitialBid ∧ b.InitialBid ≤ b.MaxBid ∧ 0 < b.BidIncrement ∧
      b.CurrentBid = 0) ∧ loneZero.length = 1 ∧
    determineWinner 5 loneZero = some (0, 3, [⟨"x", 0, 10, 3, 3, 0⟩]) ∧
    ∀ b ∈ loneZero, b.InitialBid ≠ 3 := by
  decide

/-- C9 (amended): a ledger holding exactly one bid (a record of Go `int`
amounts) with `0 ≤ InitialBid ≤ MaxBid`, a positive increment and current bid 0
yields winner index 0; the price is the initial bid, except that a lone bid
with initial bid 0 whose increment fits under the ceiling is raised once and
the price is the increment. -/
theorem determineWinner_loneBidder (b : Bid) (htyped : Typed b) (h0 : 0 ≤ b.InitialBid)
    (_h1 : b.InitialBid ≤ b.MaxBid) (hinc : 0 < b.BidIncrement) (hcur : b.CurrentBid = 0)
    (fuel : Nat) (hfuel : 2 ≤ fuel) :
    determineWinner fuel [b] =
      some (0, (if b.InitialBid = 0 ∧ b.BidIncrement ≤ b.MaxBid then b.BidIncrement
          else b.InitialBid),
        [{ b with CurrentBid := if b.InitialBid = 0 ∧ b.BidIncrement ≤ b.MaxBid
            then b.BidIncrement else b.InitialBid }]) := by
  obtain ⟨f, rfl⟩ : ∃ f, fuel = f + 2 := ⟨fuel - 2, by omega⟩
  have hfb : fallback b = { b with CurrentBid := b.InitialBid } := by
    unfold fallback; rw [if_pos hcur]
  have hw : wrap (b.InitialBid + b.BidIncrement) = b.InitialBid + b.BidIncrement ∨
      b.InitialBid ≠ 0 := by
    by_cases hi : b.InitialBid = 0
    · left
      rw [hi, zero_add]
      exact wrap_of_isInt htyped.2.2.1
    · right; exact hi
  split_ifs with hz
  · have hw' : wrap (b.InitialBid + b.BidIncrement) = b.BidIncrement := by
      rcases hw with hw | hw
      · rw [hw, hz.1, zero_add]
      · exact absurd hz.1 hw
    have hr : raiseLoop (f + 1 + 1) 0 (fallback b) =
        some { b with CurrentBid := b.BidIncrement } := by
      rw [hfb, raiseLoop_step _ _ _ (by simp only; rw [hw']; omega)]
      simp only [hw']
      rw [raiseLoop_stop _ _ _ (by simp only; omega)]
    exact determineWinner_singleton (f + 1) b _ hr (by simp only; omega)
  · have hr : raiseLoop (f + 1 + 1) 0 (fallback b) =
        some { b with CurrentBid := b.InitialBid } := by
      rw [hfb, raiseLoop_stop _ _ _ (by
        simp only
        rcases hw with hw | hw
        · rw [hw]; omega
        · omega)]
    exact determineWinner_singleton (f + 1) b _ hr (by simp only; omega)


theorem Uniform_step {a m d : Int} {b b' : Bid} (h : Uniform a m d b) (hs : Step b b') :
    Uniform a m d b' ∧ ∃ k : Nat, b'.CurrentBid = a + k * d := by
  obtain ⟨h1, h2, h3, h4⟩ := h
  obtain ⟨-, hini, hmax, hincr, -⟩ := Step_frame hs
  obtain ⟨k, hk, -⟩ := Step_cur hs
  have hex : ∃ k : Nat, b'.CurrentBid = a + k * d := by
    rw [fallback_cur] at hk
    split_ifs at hk with hz
    · exact ⟨k, by rw [hk, h1, h3]⟩
    · rcases h4 with h4 | ⟨j, hj⟩
      · exact absurd h4 hz
      · exact ⟨j + k, by rw [hk, hj, h3]; push_cast; ring⟩
  exact ⟨⟨by rw [hini, h1], by rw [hmax, h2], by rw [hincr, h3], Or.inr hex⟩, hex⟩

theorem top_le {a m d c : Int} {k : Nat} (hd : 0 < d) (hc : c = a + k * d) (hm : c ≤ m) :
    c ≤ a + (m - a) / d * d := by
  have h1 : (k : Int) ≤ (m - a) / d := (Int.le_ediv_iff_mul_le hd).2 (by omega)
  have := Int.mul_le_mul_of_nonneg_right h1 (le_of_lt hd)
  omega

theorem top_eq {a m d c : Int} {k : Nat} (hd : 0 < d) (hc : c = a + k * d) (hm : c ≤ m)
    (hr : m < c + d) : c = a + (m - a) / d * d := by
  apply le_antisymm (top_le hd hc hm)
  have h1 : (m - a) / d < k + 1 := (Int.ediv_lt_iff_lt_mul hd).2 (by
    have : ((k : Int) + 1) * d = k * d + d := by ring
    omega)
  have h2 : (m - a) / d ≤ k := by omega
  have := Int.mul_le_mul_of_nonneg_right h2 (le_of_lt hd)
  omega


theorem UniformInv_pres (fuel : Nat) (bs₀ : List Bid) (a m d : Int) (H : Int)
    (bs bs' : List Bid) (H' : Int) (h : UniformInv bs₀ a m d H bs)
    (hp : passBids fuel H bs = some (bs', H')) : UniformInv bs₀ a m d H' bs' := by
  refine ⟨ValidInv_pres fuel bs₀ H bs bs' H' h.1 hp, ?_⟩
  intro b' hb'
  obtain ⟨b, hb, hs⟩ := forall₂_mem_right (passBids_spec fuel _ _ _ _ h.1.1.2.2 hp).1 b' hb'
  exact (Uniform_step (h.2 b hb) hs).1

/-- Within the range where no sum overflows, identical bidders all end at the
top: on a ledger of `n ≥ 2` bids that share initial bid `a`, maximum `m` and
increment `d` (`0 ≤ a ≤ m`, `d > 0`, `m + d ≤ maxInt`, current bid 0) the call
returns winner index 0 and price `a + ((m - a) / d) * d`, and every bid ends at
that value. -/
theorem determineWinner_identical_noOverflow (bids : List Bid) (a m d : Int)
    (hlen : 2 ≤ bids.length) (ha : 0 ≤ a) (ham : a ≤ m) (hd : 0 < d) (hfit : m + d ≤ maxInt)
    (hsame : ∀ b ∈ bids, b.InitialBid = a ∧ b.MaxBid = m ∧ b.BidIncrement = d ∧ b.CurrentBid = 0)
    (fuel : Nat) (hfuel : fuelBound bids ≤ fuel) :
    ∃ bids', determineWinner fuel bids = some (0, a + (m - a) / d * d, bids') ∧
      bids'.length = bids.length ∧ ∀ b ∈ bids', b.CurrentBid = a + (m - a) / d * d := by
  have hvalid : ∀ b ∈ bids, Valid b := by
    intro b hb
    obtain ⟨h1, h2, h3, h4⟩ := hsame b hb
    exact ⟨by omega, by omega, by omega, Or.inl h4⟩
  have hsafe : ∀ b ∈ bids, Safe b := by
    intro b hb
    obtain ⟨h1, h2, h3, h4⟩ := hsame b hb
    apply Valid_safe (hvalid b hb)
    · unfold Typed IsInt
      unfold maxInt at hfit
      unfold minInt maxInt
      rw [h1, h2, h3, h4]
      omega
    · rw [h2, h3]; exact hfit
  have hgrown : List.Forall₂ Grown bids bids := Grown_same bids hvalid
  obtain ⟨bsf, Hf, Hin, bsin, hdw, ⟨⟨hbin, hgin⟩, huin⟩, hp, hfin, ⟨⟨hbf, -⟩, huf⟩⟩ :=
    determineWinner_final fuel bids hsafe hfuel (UniformInv bids a m d)
      (UniformInv_pres fuel bids a m d)
      ⟨⟨Base_init bids hsafe, hgrown⟩, fun b hb =>
        ⟨(hsame b hb).1, (hsame b hb).2.1, (hsame b hb).2.2.1, Or.inl (hsame b hb).2.2.2⟩⟩
  obtain ⟨hstep, hrun, hS⟩ := passBids_spec fuel _ _ _ _ hbin.2.2 hp
  have hres : List.Forall₂ Resolved bids bsf :=
    forall₂_trans (R := Grown) (S := Step) (T := Resolved)
      (fun _ _ _ h₁ h₂ => (Grown_step h₁ h₂).2) hgin hstep
  have hlenf := (forall₂_get hres).1
  -- facts on every record of the final ledger
  have hfact : ∀ b ∈ bsf, b.MaxBid = m ∧ b.BidIncrement = d ∧ a ≤ b.CurrentBid ∧
      b.CurrentBid ≤ m ∧ b.CurrentBid ≤ a + (m - a) / d * d ∧
      (m < b.CurrentBid + d → b.CurrentBid = a + (m - a) / d * d) := by
    intro b hb
    obtain ⟨b₁, hb₁, hs⟩ := forall₂_mem_right hstep b hb
    obtain ⟨⟨u1, u2, u3, -⟩, k, hk⟩ := Uniform_step (huin b₁ hb₁) hs
    obtain ⟨b₀, -, hr⟩ := forall₂_mem_right hres b hb
    obtain ⟨-, -, -, r1, r2⟩ := hr
    rw [u1] at r1
    rw [u2] at r2
    exact ⟨u2, u3, r1, r2, top_le hd hk r2, fun h => top_eq hd hk r2 h⟩
  have hle : ∀ b ∈ bsf, b.CurrentBid ≤ Hf := by
    intro b hb; rw [hrun]; exact runHigh_ge_mem _ _ b hb
  have hfin' := (isFinal_iff Hf bsf hbf.2.2).1 hfin
  match bsf, hlenf, hS, hfact, hle, hfin', hbf, hdw with
  | [], hl, _, _, _, _, _, _ => simp at hl; omega
  | [_], hl, _, _, _, _, _, _ => simp at hl; omega
  | b0 :: b1 :: rest, hl, hS, hfact, hle, hfin', hbf, hdw =>
    obtain ⟨-, e1, -⟩ := hS
    have m0 : b0 ∈ b0 :: b1 :: rest := List.mem_cons_self _ _
    have m1 : b1 ∈ b0 :: b1 :: rest := List.mem_cons_of_mem _ (List.mem_cons_self _ _)
    have f0 := hfact b0 m0
    have f1 := hfact b1 m1
    have g0 := hfin' b0 m0
    have hb0 := bump_ge_cur Hin b0
    have l0 := hle b0 m0
    have l1 := hle b1 m1
    unfold Raisable at e1 g0
    rw [f1.1, f1.2.1] at e1
    rw [f0.1, f0.2.1] at g0
    have hT1 : b1.CurrentBid = a + (m - a) / d * d := by
      by_cases hr : b1.CurrentBid + d ≤ m
      · have : b0.CurrentBid = a + (m - a) / d * d := f0.2.2.2.2.2 (by omega)
        omega
      · exact f1.2.2.2.2.2 (by omega)
    have hHf : Hf = a + (m - a) / d * d := by
      apply le_antisymm
      · rcases hbf.2.1 with h | ⟨c, hc, hcH⟩
        · omega
        · rw [← hcH]; exact (hfact c hc).2.2.2.2.1
      · omega
    have hall : ∀ b ∈ b0 :: b1 :: rest, b.CurrentBid = a + (m - a) / d * d := by
      intro b hb
      have f := hfact b hb
      have g := hfin' b hb
      unfold Raisable at g
      rw [f.1, f.2.1] at g
      by_contra hne
      exact hne (f.2.2.2.2.2 (by omega))
    refine ⟨b0 :: b1 :: rest, ?_, hl, hall⟩
    rw [hdw, hHf]
    simp only [findWinner, hall b0 m0, if_true]


/-- Witness for C9 (amended) on the fourth case of `TestDetermineWinner`. -/
theorem determineWinner_loneBidder_witness :
    determineWinner 5 [⟨"Alex", 250000, 300000, 50000, 0, 0⟩] =
      some (0, 250000, [⟨"Alex", 250000, 300000, 50000, 250000, 0⟩]) :=
  determineWinner_loneBidder ⟨"Alex", 250000, 300000, 50000, 0, 0⟩ (by decide) (by decide)
    (by decide) (by decide) rfl 5 (by decide)

/-- Ten identical bidders (5000, 8000, 300), the fifth case of
`TestDetermineWinner`, give `(0, 8000)` and all end at 8000. -/
theorem tenBidders_result :
    ∃ bids', determineWinner 120000 tenBidders = some (0, 8000, bids') ∧
      bids'.length = tenBidders.length ∧ ∀ b ∈ bids', b.CurrentBid = 8000 := by
  have h := determineWinner_identical_noOverflow tenBidders 5000 8000 300 (by decide)
    (by decide) (by decide) (by decide) (by decide) (by decide) 120000 (by decide)
  have hT : (5000 : Int) + (8000 - 5000) / 300 * 300 = 8000 := by decide
  rw [hT] at h
  exact h

/-- C10 fails on the code: `twinLedger` holds two identical bids with
`0 ≤ a ≤ m`, `d > 0` and current bid 0, where `a + ((m - a) / d) * d = 5`; the
call returns `(0, 5)`, but the second bid ends at -1, not at 5: the sum
`5 + MaxInt64` of the raise guard wraps around, passes the guard and is stored.
The same happens when the two bids are stored by `CreateBidHandler`. -/
theorem determineWinner_identical_overflow :
    (2 ≤ twinLedger.length ∧ ∀ b ∈ twinLedger, b.InitialBid = 5 ∧ b.MaxBid = 6 ∧
      b.BidIncrement = 9223372036854775807 ∧ b.CurrentBid = 0 ∧ Typed b) ∧
    (5 : Int) + (6 - 5) / 9223372036854775807 * 9223372036854775807 = 5 ∧
    determineWinner 30 twinLedger =
      some (0, 5, [⟨"1", 5, 6, 9223372036854775807, 5, 1⟩,
        ⟨"2", 5, 6, 9223372036854775807, -1, 1⟩]) ∧
    determineWinner 30 twinStored =
      some (0, 5, [⟨"1", 5, 6, 9223372036854775807, 5, 1⟩,
        ⟨"2", 5, 6, 9223372036854775807, -1, 1⟩]) := by
  decide

/-! ## The handlers -/

/-- C7 fails on the code: after `CreateBidHandler` has stored a bid with
negative amounts (it validates nothing), the ledger is non-empty and its
increment is positive, yet `determineWinner` returns index -1 and
`GetItemWinner` panics on `item.Bids[-1]` instead of returning a record. -/
theorem GetItemWinner_negative_panics :
    (CreateBidHandler testItems (some 1) (some negativeRequest)).2 =
      Reply.ok ⟨"x", -5, -5, 1, -5, 1⟩ ∧
    (CreateBidHandler testItems (some 1) (some negativeRequest)).1 1 =
      some ⟨1, "Test Item", [⟨"x", -5, -5, 1, -5, 1⟩]⟩ ∧
    determineWinner 5 [⟨"x", -5, -5, 1, -5, 1⟩] = some (-1, 0, [⟨"x", -5, -5, 1, -5, 1⟩]) ∧
    (GetItemWinner 5 (CreateBidHandler testItems (some 1) (some negativeRequest)).1
      (some 1)).map Prod.snd = some Reply.indexPanic := by
  decide

/-- C8: `CreateBidHandler` on a registered item appends exactly one record at
the end of that item's ledger, built from the submitted values with
`CurrentBid = InitialBid` and the item's identifier; it replies with that
record and leaves every other item as it is. On an unregistered identifier it
replies `itemNotFound` and changes nothing. -/
theorem CreateBidHandler_appends (items : Items) (itemID : Int) (bidR : BidRequest) :
    (∀ item, items itemID = some item →
      ∃ bid : Bid,
        bid = ⟨bidR.BidderName, bidR.InitialBid, bidR.MaxBid, bidR.BidIncrement,
          bidR.InitialBid, itemID⟩ ∧
        (CreateBidHandler items (some itemID) (some bidR)).2 = Reply.ok bid ∧
        (CreateBidHandler items (some itemID) (some bidR)).1 itemID =
          some ⟨item.ID, item.Name, item.Bids ++ [bid]⟩ ∧
        (∀ (n : Nat) (b : Bid), item.Bids[n]? = some b → (item.Bids ++ [bid])[n]? = some b) ∧
        (item.Bids ++ [bid])[item.Bids.length]? = some bid ∧
        (item.Bids ++ [bid]).length = item.Bids.length + 1 ∧
        ∀ j, j ≠ itemID → (CreateBidHandler items (some itemID) (some bidR)).1 j = items j) ∧
    (items itemID = none →
      ∀ body, CreateBidHandler items (some itemID) body = (items, Reply.itemNotFound)) := by
  constructor
  · intro item hitem
    refine ⟨_, rfl, ?_, ?_, ?_, ?_, ?_, ?_⟩
    · simp only [CreateBidHandler, hitem]
    · simp only [CreateBidHandler, hitem, Function.update_same]
    · intro n b hb
      have hn := (List.getElem?_eq_some.1 hb).1
      rw [List.getElem?_append_left hn]
      exact hb
    · simp
    · simp
    · intro j hj
      simp only [CreateBidHandler, hitem, Function.update_noteq hj]
  · intro hnone body
    simp only [CreateBidHandler, hnone]

/-- Witness for C8 on the registry and request of `TestCreateBidHandler`. -/
theorem CreateBidHandler_appends_witness :
    (CreateBidHandler testItems (some 1) (some testRequest)).2 =
      Reply.ok ⟨"Test Bidder", 100, 200, 10, 100, 1⟩ ∧
    (CreateBidHandler testItems (some 1) (some testRequest)).1 1 =
      some ⟨1, "Test Item", [⟨"Test Bidder", 100, 200, 10, 100, 1⟩]⟩ ∧
    CreateBidHandler testItems (some 2) (some testRequest) = (testItems, Reply.itemNotFound) := by
  obtain ⟨bid, hbid, h1, h2, -⟩ :=
    (CreateBidHandler_appends testItems 1 testRequest).1 ⟨1, "Test Item", []⟩ rfl
  subst hbid
  exact ⟨h1, h2, (CreateBidHandler_appends testItems 2 testRequest).2 rfl (some testRequest)⟩

/-! ## The result does not depend on the budget -/

theorem raiseLoop_det (H : Int) : ∀ (f g : Nat) (b x y : Bid),
    raiseLoop f H b = some x → raiseLoop g H b = some y → x = y := by
  intro f
  induction f with
  | zero => intro g b x y h; simp [raiseLoop] at h
  | succ f ih =>
    intro g b x y hx hy
    cases g with
    | zero => simp [raiseLoop] at hy
    | succ g =>
      unfold raiseLoop at hx hy
      split_ifs at hx hy with hg
      · exact ih g _ x y hx hy
      · simp only [Option.some.injEq] at hx hy
        rw [← hx, ← hy]

theorem passBids_det (f g : Nat) : ∀ (bs : List Bid) (H : Int) (x y : List Bid × Int),
    passBids f H bs = some x → passBids g H bs = some y → x = y := by
  intro bs
  induction bs with
  | nil =>
    intro H x y hx hy
    simp only [passBids, Option.some.injEq] at hx hy
    rw [← hx, ← hy]
  | cons b rest ih =>
    intro H x y hx hy
    unfold passBids at hx hy
    split at hx
    · exact absurd hx (by simp)
    · rename_i b1 hb1
      split at hy
      · exact absurd hy (by simp)
      · rename_i b2 hb2
        have hb := raiseLoop_det H f g _ _ _ hb1 hb2
        subst hb
        split at hx
        · exact absurd hx (by simp)
        · rename_i r1 h1 hr1
          split at hy
          · exact absurd hy (by simp)
          · rename_i r2 h2 hr2
            have := ih _ _ _ hr1 hr2
            simp only [Prod.mk.injEq] at this
            obtain ⟨rfl, rfl⟩ := this
            simp only [Option.some.injEq] at hx hy
            rw [← hx, ← hy]

theorem resolveLoop_det (f g : Nat) : ∀ (n m : Nat) (H : Int) (bs : List Bid)
    (x y : List Bid × Int),
    resolveLoop f n H bs = some x → resolveLoop g m H bs = some y → x = y := by
  intro n
  induction n with
  | zero => intro m H bs x y h; simp [resolveLoop] at h
  | succ n ih =>
    intro m H bs x y hx hy
    cases m with
    | zero => simp [resolveLoop] at hy
    | succ m =>
      unfold resolveLoop at hx hy
      split at hx
      · exact absurd hx (by simp)
      · rename_i bs1 H1 hp1
        split at hy
        · exact absurd hy (by simp)
        · rename_i bs2 H2 hp2
          have := passBids_det f g _ _ _ _ hp1 hp2
          simp only [Prod.mk.injEq] at this
          obtain ⟨rfl, rfl⟩ := this
          split_ifs at hx hy with hfin
          · simp only [Option.some.injEq] at hx hy
            rw [← hx, ← hy]
          · exact ih m _ _ x y hx hy

/-- Two runs of `determineWinner` that both return, return the same. -/
theorem determineWinner_det (f g : Nat) (bids : List Bid) (x y : Int × Int × List Bid)
    (hx : determineWinner f bids = some x) (hy : determineWinner g bids = some y) : x = y := by
  unfold determineWinner at hx hy
  split at hx
  · exact absurd hx (by simp)
  · rename_i bs1 H1 h1
    split at hy
    · exact absurd hy (by simp)
    · rename_i bs2 H2 h2
      have := resolveLoop_det f g _ _ _ _ _ _ h1 h2
      simp only [Prod.mk.injEq] at this
      obtain ⟨rfl, rfl⟩ := this
      simp only [Option.some.injEq] at hx hy
      rw [← hx, ← hy]

/-! ## Zero increments and the fixed point -/

/-- With increment 0 the raise guard never changes: a bid that is at or below
the highest bid and under its ceiling keeps the inner loop running for ever. -/
theorem raiseLoop_stuck (H : Int) : ∀ (fuel : Nat) (b : Bid), b.BidIncrement = 0 →
    IsInt b.CurrentBid → b.CurrentBid ≤ H → b.CurrentBid ≤ b.MaxBid →
    raiseLoop fuel H b = none := by
  intro fuel
  induction fuel with
  | zero => intro b _ _ _ _; rfl
  | succ n ih =>
    intro b h0 ht h1 h2
    have hw : wrap (b.CurrentBid + b.BidIncrement) = b.CurrentBid := by
      rw [h0, add_zero]; exact wrap_of_isInt ht
    unfold raiseLoop
    rw [hw, if_pos ⟨h1, h2⟩]
    have hb : ({ b with CurrentBid := b.CurrentBid } : Bid) = b := rfl
    rw [hb]
    exact ih b h0 ht h1 h2

/-- C11 fails on the code: on a non-empty ledger with `0 ≤ InitialBid ≤ MaxBid`
whose second bid has increment 0 (the other one 10), `determineWinner` does
not terminate: whatever the budget, the inner loop on the zero-increment bid
(100 ≤ 150 and 100 + 0 ≤ 200) never exits and no winner is returned. -/
theorem determineWinner_zeroIncrement_diverges (fuel : Nat) :
    staticLedger ≠ [] ∧
    (∀ b ∈ staticLedger, 0 ≤ b.InitialBid ∧ b.InitialBid ≤ b.MaxBid ∧ 0 ≤ b.BidIncrement) ∧
    (∃ b ∈ staticLedger, b.BidIncrement = 0) ∧
    determineWinner fuel staticLedger = none := by
  refine ⟨by decide, by decide, by decide, ?_⟩
  have hp : passBids fuel 0 staticLedger = none := by
    cases fuel with
    | zero => rfl
    | succ f =>
      have h1 : raiseLoop (f + 1) 0 (fallback ⟨"rival", 150, 200, 10, 150, 1⟩) =
          some ⟨"rival", 150, 200, 10, 150, 1⟩ :=
        raiseLoop_stop f 0 _ (by decide)
      have h2 : raiseLoop (f + 1) (bump 0 ⟨"rival", 150, 200, 10, 150, 1⟩)
          (fallback ⟨"static", 100, 200, 0, 100, 1⟩) = none :=
        raiseLoop_stuck _ (f + 1) _ (by decide) (by decide) (by decide) (by decide)
      unfold staticLedger passBids
      rw [h1]
      simp only
      unfold passBids
      rw [h2]
  unfold determineWinner
  rw [resolveLoop_of_pass_none fuel fuel 0 staticLedger hp]

theorem UnderCeiling_moved {b b' : Bid} (h : UnderCeiling b) (hm : Moved b b') :
    UnderCeiling b' := by
  obtain ⟨h1, h2, h3, h4⟩ := h
  obtain ⟨⟨-, f2, f3, f4, -⟩, hc, ht⟩ := hm
  refine ⟨by rw [f2, f3]; exact h1, ?_, by rw [f4]; exact h3, ht h4⟩
  rw [f3]
  rcases hc with hc | hc
  · rw [hc, fallback_cur]
    split_ifs
    · exact h1
    · exact h2
  · exact hc

theorem UnderCeiling_pres (fuel : Nat) (H : Int) (bs bs' : List Bid) (H' : Int)
    (h : ∀ b ∈ bs, UnderCeiling b) (hp : passBids fuel H bs = some (bs', H')) :
    ∀ b' ∈ bs', UnderCeiling b' := by
  intro b' hb'
  obtain ⟨b, hb, hm⟩ := forall₂_mem_right (passBids_moved fuel _ _ _ _ hp).1 b' hb'
  exact UnderCeiling_moved (h b hb) hm

theorem Valid_underCeiling {b : Bid} (h : Valid b) (ht : Typed b) : UnderCeiling b := by
  obtain ⟨h1, h2, h3, h4⟩ := h
  refine ⟨h2, ?_, h3, ht⟩
  rcases h4 with h | h <;> omega

/-- C13: the state left by `determineWinner` is a fixed point of the auction.
On every non-empty ledger of valid Go `int` records, whenever the call returns,
every bid either stands at the returned clearing price or cannot take one more
increment: `CurrentBid + BidIncrement` exceeds `MaxBid`, both as the code
computes the sum and as a mathematical sum; no bid that could still afford a
raise is left below the price. The call does return, with any budget of at
least `fuelBound`, when no sum `MaxBid + BidIncrement` overflows. -/
theorem determineWinner_fixedPoint (bids : List Bid) (_hne : bids ≠ [])
    (htyped : ∀ b ∈ bids, Typed b) (hvalid : ∀ b ∈ bids, Valid b) :
    (∀ (fuel : Nat) (i p : Int) (bids' : List Bid),
      determineWinner fuel bids = some (i, p, bids') →
      bids'.length = bids.length ∧
      ∀ b ∈ bids', b.CurrentBid = p ∨
        (b.MaxBid < wrap (b.CurrentBid + b.BidIncrement) ∧
          b.MaxBid < b.CurrentBid + b.BidIncrement)) ∧
    ((∀ b ∈ bids, b.MaxBid + b.BidIncrement ≤ maxInt) →
      ∀ fuel : Nat, fuelBound bids ≤ fuel →
        ∃ i p bids', determineWinner fuel bids = some (i, p, bids')) := by
  constructor
  · intro fuel i p bids' hdw
    obtain ⟨-, Hin, bsin, -, hp, hfin, ⟨huc, hfr⟩⟩ :=
      determineWinner_run fuel bids
        (fun _ bs => (∀ b ∈ bs, UnderCeiling b) ∧ List.Forall₂ SameFrame bids bs)
        (fun H bs bs' H' h hp => ⟨UnderCeiling_pres fuel H bs bs' H' h.1 hp,
          Frame_pres fuel bids H bs bs' H' h.2 hp⟩)
        ⟨fun b hb => Valid_underCeiling (hvalid b hb) (htyped b hb),
          forall₂_same SameFrame_refl bids⟩ i p bids' hdw
    refine ⟨(forall₂_get hfr).1, ?_⟩
    intro b hb
    have hrun := (passBids_moved fuel _ _ _ _ hp).2
    have hle : b.CurrentBid ≤ p := by rw [hrun]; exact runHigh_ge_mem _ _ b hb
    have hf := (isFinal_iff_wrap p bids').1 hfin b hb
    obtain ⟨-, h2, h3, -, ⟨-, hM⟩, -, hc, -⟩ := huc b hb
    by_cases h : b.CurrentBid = p
    · exact Or.inl h
    · right
      have hw : b.MaxBid < wrap (b.CurrentBid + b.BidIncrement) := by
        by_contra hcon
        exact hf ⟨by omega, h2, by omega⟩
      refine ⟨hw, ?_⟩
      by_contra hcon
      have : wrap (b.CurrentBid + b.BidIncrement) = b.CurrentBid + b.BidIncrement := by
        apply wrap_of_isInt
        unfold IsInt
        omega
      omega
  · intro hfit fuel hfuel
    exact determineWinner_returns fuel bids
      (fun b hb => Valid_safe (hvalid b hb) (htyped b hb) (hfit b hb)) hfuel

/-- Witness for C13 on the first test ledger. -/
theorem determineWinner_fixedPoint_witness :
    testLedger ≠ [] ∧ (∀ b ∈ testLedger, Typed b) ∧ (∀ b ∈ testLedger, Valid b) ∧
    (∀ (fuel : Nat) (i p : Int) (bids' : List Bid),
      determineWinner fuel testLedger = some (i, p, bids') →
      bids'.length = testLedger.length ∧
      ∀ b ∈ bids', b.CurrentBid = p ∨
        (b.MaxBid < wrap (b.CurrentBid + b.BidIncrement) ∧
          b.MaxBid < b.CurrentBid + b.BidIncrement)) ∧
    ∃ i p bids', determineWinner 40000 testLedger = some (i, p, bids') :=
  ⟨by decide, by decide, by decide,
    (determineWinner_fixedPoint testLedger (by decide) (by decide) (by decide)).1,
    (determineWinner_fixedPoint testLedger (by decide) (by decide) (by decide)).2 (by decide)
      40000 (by decide)⟩

end Auction
